import Mathlib

/-!
Verification development for the GitSync reconciliation engine.

The source program is a TypeScript application that reconciles a local
file tree against a branch of a remote Git repository:
  * `fileUtils` — path sanitizer, Git blob hashing, repo-URL parsing;
  * `githubService` — thin wrapper over the Git data API;
  * `geminiService` — external commit-message generator with fallbacks;
  * the `startSync` orchestrator in the main application component.

We embed these shallowly: strings are Lean `String`s (with the JavaScript
string operations implemented over their character lists), byte buffers are
`List Nat` (each element < 256), machine words in the hash are `Nat` with
explicit reduction modulo 2^32, and the effectful collaborators (network
calls, file reads, the message generator) are oracle parameters collected
in a `RemoteEnv` record, so that the engine itself is a pure function of
(configuration, local files, environment).
-/

namespace GitSync

/-! ## Path sanitizer (fileUtils.sanitizeGitPath)

The source pipeline is: replace every backslash by a slash; collapse runs
of slashes; strip leading and trailing slashes; split on `/`; keep only
segments that are non-empty and differ from `.` and `..`; rejoin with `/`.
The collapse/strip regex steps only delete characters that would otherwise
produce empty segments, and empty segments are dropped by the filter
anyway, so the composition is exactly: map backslashes to slashes, split
on `/`, filter the good segments, rejoin.  We implement that composition
over the string's character list. -/

/-- Backslash-to-slash replacement of `.replace(/\\/g, '/')`, one char. -/
def deback (c : Char) : Char :=
  if c = '\\' then '/' else c

/-- Split a character list on `'/'` (JavaScript `String.prototype.split('/')`):
always returns a non-empty list of segments, with empty segments marking
leading, trailing and doubled slashes. -/
def splitOnSlash : List Char → List (List Char)
  | [] => [[]]
  | c :: cs =>
    match splitOnSlash cs with
    | [] => [[]]
    | seg :: rest => if c = '/' then [] :: seg :: rest else (c :: seg) :: rest

/-- The segment filter of the sanitizer:
`part => part && part !== '.' && part !== '..'`. -/
def goodSeg (seg : List Char) : Bool :=
  decide (seg ≠ [] ∧ seg ≠ ['.'] ∧ seg ≠ ['.', '.'])

/-- Rejoin segments with `'/'` (JavaScript `Array.prototype.join('/')`). -/
def joinSegs : List (List Char) → List Char
  | [] => []
  | [s] => s
  | s :: rest => s ++ '/' :: joinSegs rest

/-- `sanitizeGitPath` on character lists. -/
def sanitizeChars (cs : List Char) : List Char :=
  joinSegs (((splitOnSlash (cs.map deback)).filter goodSeg))

/-- fileUtils.sanitizeGitPath. -/
def sanitizeGitPath (s : String) : String :=
  ⟨sanitizeChars s.data⟩

/-- JavaScript `String.prototype.startsWith` on whole strings. -/
def jsStartsWith (s pre : String) : Bool :=
  pre.data.isPrefixOf s.data

/-! ## Content hasher (fileUtils.computeGitBlobSha)

The source computes the Git blob object identity of a file: SHA-1 of
`"blob " ++ decimal byte length ++ NUL ++ content`, rendered as lowercase
hex (`b.toString(16).padStart(2, '0')` per byte).  We implement SHA-1
(FIPS 180) over byte lists, with 32-bit words represented as `Nat` reduced
modulo `2 ^ 32`. -/

/-- 2^32, the modulus for 32-bit words. -/
def m32 : Nat := 4294967296

/-- 32-bit modular addition. -/
def add32 (a b : Nat) : Nat := (a + b) % m32

/-- Rotate a 32-bit word (`x < 2 ^ 32`) left by `n`: the two shifted parts
occupy disjoint bit ranges, so their OR is a sum. -/
def rotl32 (n x : Nat) : Nat := (x * 2 ^ n) % m32 + x / 2 ^ (32 - n)

/-- The SHA-1 round function for round `t`. -/
def sha1F (t b c d : Nat) : Nat :=
  if t < 20 then (b &&& c) ||| ((b ^^^ 4294967295) &&& d)
  else if t < 40 then b ^^^ c ^^^ d
  else if t < 60 then (b &&& c) ||| (b &&& d) ||| (c &&& d)
  else b ^^^ c ^^^ d

/-- The SHA-1 round constant for round `t`. -/
def sha1K (t : Nat) : Nat :=
  if t < 20 then 0x5A827999
  else if t < 40 then 0x6ED9EBA1
  else if t < 60 then 0x8F1BBCDC
  else 0xCA62C1D6

/-- `n`-byte big-endian rendering of `v`. -/
def bytesBE : Nat → Nat → List Nat
  | 0, _ => []
  | n + 1, v => v / 2 ^ (8 * n) % 256 :: bytesBE n v

/-- SHA-1 padding: append `0x80`, zeros to 56 mod 64, then the bit length
as 8 big-endian bytes. -/
def sha1Pad (msg : List Nat) : List Nat :=
  msg ++ [128] ++ List.replicate ((64 - (msg.length + 9) % 64) % 64) 0
      ++ bytesBE 8 (msg.length * 8)

/-- Chunking worker, structurally recursive on a fuel argument so that it
evaluates inside the kernel; with `l.length ≤ fuel` it splits `l` into
consecutive chunks of `n + 1` elements (the last one possibly shorter). -/
def chunksFuel (n : Nat) : Nat → List α → List (List α)
  | _, [] => []
  | 0, l => [l]
  | fuel + 1, x :: xs =>
      ((x :: xs).take (n + 1)) :: chunksFuel n fuel ((x :: xs).drop (n + 1))

/-- Split a list into consecutive chunks of `n + 1` elements (the last one
possibly shorter). -/
def chunksAux (n : Nat) (l : List α) : List (List α) :=
  chunksFuel n l.length l

/-- The 16 initial 32-bit words of a 64-byte block, big-endian. -/
def words16 : List Nat → List Nat
  | b0 :: b1 :: b2 :: b3 :: rest =>
      (((b0 * 256 + b1) * 256 + b2) * 256 + b3) :: words16 rest
  | _ => []

/-- Message-schedule extension, accumulating words newest-first:
`W[t] = rotl1 (W[t-3] xor W[t-8] xor W[t-14] xor W[t-16])`. -/
def sha1Extend : List Nat → Nat → List Nat
  | r, 0 => r
  | r, k + 1 =>
      sha1Extend
        (rotl32 1 (r.getD 2 0 ^^^ r.getD 7 0 ^^^ r.getD 13 0 ^^^ r.getD 15 0) :: r) k

/-- The 80 compression rounds, starting at round index `t`. -/
def sha1Rounds : Nat → List Nat → Nat × Nat × Nat × Nat × Nat → Nat × Nat × Nat × Nat × Nat
  | _, [], st => st
  | t, w :: ws, (a, b, c, d, e) =>
      sha1Rounds (t + 1) ws
        ((rotl32 5 a + sha1F t b c d + e + sha1K t + w) % m32, a, rotl32 30 b, c, d)

/-- Compress one 64-byte block into the running hash state. -/
def sha1Block (h : Nat × Nat × Nat × Nat × Nat) (block : List Nat) :
    Nat × Nat × Nat × Nat × Nat :=
  match h with
  | (h0, h1, h2, h3, h4) =>
    match sha1Rounds 0 ((sha1Extend (words16 block).reverse 64).reverse) h with
    | (a, b, c, d, e) => (add32 h0 a, add32 h1 b, add32 h2 c, add32 h3 d, add32 h4 e)

/-- The SHA-1 initialization vector. -/
def sha1Init : Nat × Nat × Nat × Nat × Nat :=
  (0x67452301, 0xEFCDAB89, 0x98BADCFE, 0x10325476, 0xC3D2E1F0)

/-- SHA-1 of a byte list, as the 20 digest bytes. -/
def sha1Bytes (msg : List Nat) : List Nat :=
  match (chunksAux 63 (sha1Pad msg)).foldl sha1Block sha1Init with
  | (h0, h1, h2, h3, h4) =>
      bytesBE 4 h0 ++ bytesBE 4 h1 ++ bytesBE 4 h2 ++ bytesBE 4 h3 ++ bytesBE 4 h4

/-- Lowercase hexadecimal digit. -/
def hexDigitChar (n : Nat) : Char :=
  if n < 10 then Char.ofNat (48 + n) else Char.ofNat (87 + n)

/-- Lowercase hex rendering, two digits per byte
(`b.toString(16).padStart(2, '0')` joined). -/
def bytesToHex (bs : List Nat) : List Char :=
  bs.foldr (fun b acc => hexDigitChar (b / 16) :: hexDigitChar (b % 16) :: acc) []

/-- The Git blob header `"blob <len>\0"` as bytes (the source builds the
string `` `blob ${size}\0` `` and UTF-8–encodes it; the header is pure
ASCII, so the bytes are the character codes). -/
def gitBlobHeader (len : Nat) : List Nat :=
  (("blob " ++ toString len).data.map Char.toNat) ++ [0]

/-- fileUtils.computeGitBlobSha, as a function of the file's bytes. -/
def computeGitBlobSha (content : List Nat) : String :=
  ⟨bytesToHex (sha1Bytes (gitBlobHeader content.length ++ content))⟩

/-- The blob hasher as the spec words it: "compute SHA-1 over the
concatenation of the ASCII string `"blob "`, the decimal byte length of
the content, a single NUL byte, and the raw content bytes; render as
lowercase hexadecimal".  Stated separately from `computeGitBlobSha`
(which mirrors the source's buffer construction) so the two can be
compared. -/
def gitBlobShaSpec (content : List Nat) : String :=
  ⟨bytesToHex (sha1Bytes
    (("blob ".data.map Char.toNat)
      ++ ((toString content.length).data.map Char.toNat)
      ++ [0] ++ content))⟩

/-! ## Data model

`GitTreeItem` is one entry of the recursive tree listing; `FileToSync` is
one selected local file.  A `File` handle in the source is an opaque byte
source read effectfully; we carry its bytes plus a flag modelling an I/O
failure of the `arrayBuffer()` read inside `computeGitBlobSha` (the upload
read failure is modelled by the blob-creation oracle instead). -/

structure GitTreeItem where
  path : String
  mode : String
  type : String
  sha : String
deriving DecidableEq

structure FileToSync where
  path : String
  content : List Nat
  hashReadFails : Bool
deriving DecidableEq

/-- The sync options consulted by `startSync` (the token and repository
URL only select the remote target and do not influence the engine's
observable behaviour, so they are omitted from the embedding). -/
structure SyncConfig where
  branch : String
  targetPath : String
  deleteMissing : Bool
  autoCommitMessage : Bool
deriving DecidableEq

/-- The state enum used by the component (values as used in the source:
IDLE, SCANNING, ANALYZING, UPLOADING, COMMITTING, SUCCESS, ERROR). -/
inductive SyncState
  | IDLE
  | SCANNING
  | ANALYZING
  | UPLOADING
  | COMMITTING
  | SUCCESS
  | ERROR
deriving DecidableEq

inductive LogLevel
  | info
  | success
  | warning
  | error
deriving DecidableEq

/-- One constructor per `addLog` call site reached by `startSync`
(the message text of the source is abbreviated to a tag plus its
interpolated data). -/
inductive LogMsg
  | noFilesSelected
  | targetingBranch (branch : String)
  | branchNotFoundInit (branch : String)
  | repoTooLarge
  | analyzingSignatures
  | analysisComplete (toUpload toDelete : Nat)
  | upToDate
  | updatingFile (path : String)
  | failedUpload (path : String)
  | syncCompleted
  | runFailed
deriving DecidableEq

/-- Error kinds of the underlying HTTP layer (`request` maps a non-2xx
response to a thrown `Error` whose message distinguishes bad credentials
from not-found from other provider messages). -/
inductive ApiError
  | authFailed
  | notFound
  | other (msg : String)
deriving DecidableEq

/-- The error `githubService.getRef` throws: its `catch` discards the
underlying error entirely and rethrows a single branch-not-found
message, whatever the cause. -/
inductive RefError
  | branchNotFound (branch : String)
deriving DecidableEq

/-- githubService.getRef.  `raw` is the outcome of the underlying
`request` call; on any failure the method throws its own
`Branch not found` error. -/
def getRef (branch : String) (raw : Except ApiError String) : Except RefError String :=
  match raw with
  | .ok sha => .ok sha
  | .error _ => .error (.branchNotFound branch)

/-- The effectful collaborators of one run, as oracles: the `getRef`
request outcome, the `getTreeRecursive` outcome (entries plus truncation
flag), the per-call blob-creation outcome (keyed by the item's remote
path and bytes; `.error` models a failed upload or file read), and the
commit-message generator's environment (whether the API key is present,
and the generation outcome).  The tree, commit and ref creation calls
are modelled as succeeding — a failure there would reach the terminal
catch after the call was already made, which no claim depends on. -/
structure RemoteEnv where
  refRaw : Except ApiError String
  treeRaw : Except ApiError (List GitTreeItem × Bool)
  createBlob : String → List Nat → Except Unit String
  geminiKeyPresent : Bool
  geminiRaw : Except Unit String

structure UploadItem where
  file : FileToSync
  remotePath : String
  isNew : Bool
deriving DecidableEq

structure TreeEntry where
  path : String
  mode : String
  type : String
  sha : String
deriving DecidableEq

/-- Everything observable about one `startSync` run: the terminal state,
the log, the classification lists, which remote calls were made and with
what.  `commitCreated` records the message and parent of the
`createCommit` call, when one happened. -/
structure SyncOutcome where
  state : SyncState
  logs : List (LogLevel × LogMsg)
  resolvedHead : Option String
  filesToUpload : List UploadItem
  filesSkipped : List String
  filesToDelete : List String
  processedRemotePaths : List String
  attemptedUploads : List String
  uploadedEntries : List TreeEntry
  finalTree : List TreeEntry
  treeCreated : Bool
  commitCreated : Option (String × Option String)
  refUpdateCalled : Bool
  refCreateCalled : Bool
deriving DecidableEq

/-! ## Reconciliation engine (startSync) -/

/-- Line 253: `config.targetPath ? sanitizeGitPath(config.targetPath) + '/' : ''`
(JavaScript truthiness: the guard is on the raw string being non-empty). -/
def targetPref (cfg : SyncConfig) : String :=
  if cfg.targetPath ≠ "" then sanitizeGitPath cfg.targetPath ++ "/" else ""

/-- Lines 257-260: the path-to-blobId map, built by inserting every
`"blob"` entry in listing order (a later entry with the same path
overwrites an earlier one, as with `Map.set`). -/
def remoteMapLookup (tree : List GitTreeItem) (p : String) : Option String :=
  ((tree.filter (fun i => decide (i.type = "blob"))).reverse.find?
    (fun i => decide (i.path = p))).map (fun i => i.sha)

/-- JavaScript truthiness of `string | undefined` (both `undefined` and
the empty string are falsy). -/
def truthy : Option String → Bool
  | none => false
  | some s => decide (s ≠ "")

/-- The content address the analysis loop obtains for a local file:
`none` models `computeGitBlobSha` throwing (unreadable file). -/
def localShaOf (f : FileToSync) : Option String :=
  if f.hashReadFails then none else some (computeGitBlobSha f.content)

structure AnalysisResult where
  toUpload : List UploadItem
  skipped : List String
  processed : List String
deriving DecidableEq

/-- Lines 267-294: classify each local file against the remote map.
`remoteSha` present (and truthy): record the path as processed, then
skip on an address match, otherwise (mismatch or hashing failure) mark
modified; absent: mark new. -/
def analyzeFiles (pref : String) (tree : List GitTreeItem) :
    List FileToSync → AnalysisResult
  | [] => ⟨[], [], []⟩
  | f :: rest =>
    let r := analyzeFiles pref tree rest
    let remotePath := sanitizeGitPath (pref ++ f.path)
    match remoteMapLookup tree remotePath with
    | some sha =>
      if sha = "" then
        { r with toUpload := ⟨f, remotePath, true⟩ :: r.toUpload }
      else if localShaOf f = some sha then
        { r with
            skipped := remotePath :: r.skipped,
            processed := remotePath :: r.processed }
      else
        { r with
            toUpload := ⟨f, remotePath, false⟩ :: r.toUpload,
            processed := remotePath :: r.processed }
    | none => { r with toUpload := ⟨f, remotePath, true⟩ :: r.toUpload }

/-- Line 299 as a survival predicate: an item passes the scoping check
iff there is no prefix or its path starts with the prefix. -/
def inPref (pref p : String) : Bool :=
  if pref = "" then true else jsStartsWith p pref

/-- Lines 296-305: the delete set — in-scope remote blob paths never
matched by a local file; always empty when delete-missing is off or the
listing was truncated. -/
def deleteSetOf (cfg : SyncConfig) (pref : String) (tree : List GitTreeItem)
    (truncated : Bool) (processed : List String) : List String :=
  if cfg.deleteMissing && !truncated then
    (tree.filter (fun i =>
      decide (i.type = "blob") && inPref pref i.path
        && !(decide (i.path ∈ processed)))).map (fun i => i.path)
  else []

def isOkB : Except Unit String → Bool
  | .ok _ => true
  | .error _ => false

/-- The `createBlob` calls a settled chunk has made: all of its items
(`Promise.all` starts every task of the chunk). -/
def chunkAttempted (c : List UploadItem) : List String :=
  c.map (fun it => it.remotePath)

/-- The tree entries pushed by a settled chunk: one fixed-mode blob entry
per successful upload (lines 329-334). -/
def chunkEntries (createBlob : String → List Nat → Except Unit String)
    (c : List UploadItem) : List TreeEntry :=
  c.filterMap (fun it =>
    match createBlob it.remotePath it.file.content with
    | .ok sha => some ⟨it.remotePath, "100644", "blob", sha⟩
    | .error _ => none)

/-- The log entries pushed by a settled chunk (lines 337-339, 347). -/
def chunkLogs (createBlob : String → List Nat → Except Unit String)
    (c : List UploadItem) : List (LogLevel × LogMsg) :=
  c.filterMap (fun it =>
    match createBlob it.remotePath it.file.content with
    | .ok _ =>
      if it.isNew then none
      else some (LogLevel.warning, LogMsg.updatingFile it.remotePath)
    | .error _ => some (LogLevel.error, LogMsg.failedUpload it.remotePath))

/-- Whether every upload of a chunk succeeds (`Promise.all` resolves). -/
def chunkOk (createBlob : String → List Nat → Except Unit String)
    (c : List UploadItem) : Bool :=
  c.all (fun it => isOkB (createBlob it.remotePath it.file.content))

/-- Whether a batch contains an item whose blob creation fails. -/
def chunkFails (createBlob : String → List Nat → Except Unit String)
    (c : List UploadItem) : Bool :=
  c.any (fun it => !isOkB (createBlob it.remotePath it.file.content))

/-- The combined remote-relative path of one local file (line 269):
the target prefix concatenated with the file's path, re-sanitized. -/
def combinedPath (cfg : SyncConfig) (p : String) : String :=
  sanitizeGitPath (targetPref cfg ++ p)

/-- The remote paths the analysis classified as new. -/
def newPathsOf (a : AnalysisResult) : List String :=
  (a.toUpload.filter (fun u => u.isNew)).map (fun u => u.remotePath)

/-- The remote paths the analysis classified as modified. -/
def modPathsOf (a : AnalysisResult) : List String :=
  (a.toUpload.filter (fun u => !u.isNew)).map (fun u => u.remotePath)

/-- Lines 322-351: sequential processing of the 5-wide upload batches.
Every item of a chunk is attempted (`Promise.all` starts them all);
successes contribute tree entries and, for re-uploads, an `Updating` log;
a failure logs an error and — once the chunk settles — aborts, so no
later chunk is started.  Within-chunk completion order is modelled as
list order. -/
def runChunks (createBlob : String → List Nat → Except Unit String) :
    List (List UploadItem) →
      List String × List TreeEntry × List (LogLevel × LogMsg) × Bool
  | [] => ([], [], [], true)
  | c :: rest =>
    if chunkOk createBlob c then
      (chunkAttempted c ++ (runChunks createBlob rest).1,
       chunkEntries createBlob c ++ (runChunks createBlob rest).2.1,
       chunkLogs createBlob c ++ (runChunks createBlob rest).2.2.1,
       (runChunks createBlob rest).2.2.2)
    else (chunkAttempted c, chunkEntries createBlob c, chunkLogs createBlob c, false)

/-- Lines 353-368: the final tree is the uploaded entries plus every
original remote blob entry not re-uploaded, not scheduled for deletion,
and not an unmatched in-scope path while delete-missing is active.
Non-blob entries are dropped. -/
def assembleTree (cfg : SyncConfig) (pref : String) (tree : List GitTreeItem)
    (uploadedEntries : List TreeEntry) (deleteSet processed : List String) :
    List TreeEntry :=
  let uploadedSet := uploadedEntries.map (fun e => e.path)
  uploadedEntries ++
    (tree.filter (fun t =>
      decide (t.type = "blob")
        && !(decide (t.path ∈ uploadedSet))
        && !(decide (t.path ∈ deleteSet))
        && !(decide (pref ≠ "") && jsStartsWith t.path pref
              && !(decide (t.path ∈ processed)) && cfg.deleteMissing))).map
      (fun t => ⟨t.path, t.mode, t.type, t.sha⟩)

/-- geminiService.generateCommitMessage: with no API key it immediately
returns one fixed message; otherwise it asks the external generator and
on any failure returns another fixed message.  It never throws. -/
def generateCommitMessage (apiKeyPresent : Bool) (genResult : Except Unit String)
    (_filesAdded _filesModified _filesDeleted : List String) : String :=
  if !apiKeyPresent then
    "chore: sync files via GitSync Mobile"
  else
    match genResult with
    | .ok text => text.trim
    | .error _ => "chore: batch update via GitSync Mobile"

/-- Line 233: `const defaultBranch = config.branch.trim() || 'main'`. -/
def branchOf (cfg : SyncConfig) : String :=
  if cfg.branch.trim = "" then "main" else cfg.branch.trim

/-- Lines 236-245: the head commit resolved for the branch, `none` when
`getRef` threw (any failure). -/
def resolvedHeadOf (branch : String) (env : RemoteEnv) : Option String :=
  match getRef branch env.refRaw with
  | .ok sha => some sha
  | .error _ => none

/-- Lines 237-245: the base tree listing used by the run — the fetched
entries and truncation flag when both requests succeeded, the initial
`{ tree: [], truncated: false }` otherwise (the catch swallows the
error; note a tree-fetch failure after a successful ref lookup keeps the
resolved head). -/
def baseTreeOf (branch : String) (env : RemoteEnv) : List GitTreeItem × Bool :=
  match getRef branch env.refRaw, env.treeRaw with
  | .ok _, .ok td => td
  | _, _ => ([], false)

/-- The log entry of the scanning catch block (line 244). -/
def scanLogsOf (branch : String) (env : RemoteEnv) : List (LogLevel × LogMsg) :=
  match getRef branch env.refRaw, env.treeRaw with
  | .ok _, .ok _ => []
  | _, _ => [(.info, .branchNotFoundInit branch)]

/-- The analysis result of a run (lines 262-294 applied to the scanned
base tree). -/
def analysisOf (cfg : SyncConfig) (files : List FileToSync) (env : RemoteEnv) :
    AnalysisResult :=
  analyzeFiles (targetPref cfg) (baseTreeOf (branchOf cfg) env).1 files

/-- The delete set of a run (lines 296-305). -/
def deleteOf (cfg : SyncConfig) (files : List FileToSync) (env : RemoteEnv) :
    List String :=
  deleteSetOf cfg (targetPref cfg) (baseTreeOf (branchOf cfg) env).1
    (baseTreeOf (branchOf cfg) env).2 (analysisOf cfg files env).processed

/-- The log entries every run that passes the selection guard emits up to
the end of the Analyzing stage (lines 234, 244, 248, 255, 307). -/
def preLogs (cfg : SyncConfig) (files : List FileToSync) (env : RemoteEnv) :
    List (LogLevel × LogMsg) :=
  [((.info : LogLevel), LogMsg.targetingBranch (branchOf cfg))]
    ++ scanLogsOf (branchOf cfg) env
    ++ (if (baseTreeOf (branchOf cfg) env).2 && cfg.deleteMissing
        then [((.warning : LogLevel), LogMsg.repoTooLarge)] else [])
    ++ [((.info : LogLevel), LogMsg.analyzingSignatures)]
    ++ [((.info : LogLevel),
         LogMsg.analysisComplete (analysisOf cfg files env).toUpload.length
           (deleteOf cfg files env).length)]

/-- The commit message of a run that reaches Committing (lines 373-378):
the fixed template, or the generator's output when auto-generation is on
(fed the added, modified and deleted path lists). -/
def commitMessageOf (cfg : SyncConfig) (files : List FileToSync)
    (env : RemoteEnv) : String :=
  if cfg.autoCommitMessage then
    generateCommitMessage env.geminiKeyPresent env.geminiRaw
      (newPathsOf (analysisOf cfg files env))
      (modPathsOf (analysisOf cfg files env))
      (deleteOf cfg files env)
  else "chore: sync " ++ toString (analysisOf cfg files env).toUpload.length
      ++ " files"

/-- startSync (part_000 lines 216-399), as a pure function of the
configuration, the selected files and the collaborator oracles.  The
connection and repo-URL guards of lines 217-220 are outside the model:
a run is considered only once they have passed. -/
def startSync (cfg : SyncConfig) (files : List FileToSync) (env : RemoteEnv) :
    SyncOutcome :=
  if files.length = 0 && !cfg.deleteMissing then
    { state := .IDLE, logs := [(.warning, .noFilesSelected)],
      resolvedHead := none, filesToUpload := [], filesSkipped := [],
      filesToDelete := [], processedRemotePaths := [], attemptedUploads := [],
      uploadedEntries := [], finalTree := [], treeCreated := false,
      commitCreated := none, refUpdateCalled := false, refCreateCalled := false }
  else
    let latestCommitSha := resolvedHeadOf (branchOf cfg) env
    let ana := analysisOf cfg files env
    let deleteSet := deleteOf cfg files env
    if ana.toUpload.length = 0 && deleteSet.length = 0 then
      { state := .SUCCESS,
        logs := preLogs cfg files env ++ [(.success, .upToDate)],
        resolvedHead := latestCommitSha, filesToUpload := [],
        filesSkipped := ana.skipped, filesToDelete := [],
        processedRemotePaths := ana.processed, attemptedUploads := [],
        uploadedEntries := [], finalTree := [], treeCreated := false,
        commitCreated := none, refUpdateCalled := false,
        refCreateCalled := false }
    else
      match runChunks env.createBlob (chunksAux 4 ana.toUpload) with
      | (attempted, entries, uploadLogs, ok) =>
        if !ok then
          { state := .ERROR,
            logs := preLogs cfg files env ++ uploadLogs
              ++ [(.error, .runFailed)],
            resolvedHead := latestCommitSha, filesToUpload := ana.toUpload,
            filesSkipped := ana.skipped, filesToDelete := deleteSet,
            processedRemotePaths := ana.processed,
            attemptedUploads := attempted, uploadedEntries := entries,
            finalTree := [], treeCreated := false, commitCreated := none,
            refUpdateCalled := false, refCreateCalled := false }
        else
          { state := .SUCCESS,
            logs := preLogs cfg files env ++ uploadLogs
              ++ [(.success, .syncCompleted)],
            resolvedHead := latestCommitSha, filesToUpload := ana.toUpload,
            filesSkipped := ana.skipped, filesToDelete := deleteSet,
            processedRemotePaths := ana.processed,
            attemptedUploads := attempted, uploadedEntries := entries,
            finalTree := assembleTree cfg (targetPref cfg)
              (baseTreeOf (branchOf cfg) env).1 entries deleteSet
              ana.processed,
            treeCreated := true,
            commitCreated := some (commitMessageOf cfg files env,
              if truthy latestCommitSha then latestCommitSha else none),
            refUpdateCalled := truthy latestCommitSha,
            refCreateCalled := !truthy latestCommitSha }

/-- handleFolderSelect (part_000 lines 194-205), restricted to what
reaches the engine: each selected file's relative path (after the root
folder segment is removed) is sanitized, and files whose path sanitizes
to the empty string are dropped. -/
def selectFiles (raw : List (String × List Nat)) : List FileToSync :=
  (raw.map (fun rf => FileToSync.mk (sanitizeGitPath rf.1) rf.2 false)).filter
    (fun f => decide (0 < f.path.length))

/-! ## Concrete runs used to instantiate the theorems -/

def cfgPlain : SyncConfig := ⟨"main", "", false, false⟩

def cfgDelete : SyncConfig := ⟨"main", "", true, false⟩

def cfgSrc : SyncConfig := ⟨"main", "src", true, false⟩

def cfgAuto : SyncConfig := ⟨"main", "", false, true⟩

/-- Branch absent (first push), every upload succeeds. -/
def envEmptyRemote : RemoteEnv :=
  ⟨.error .notFound, .error .notFound, fun _ _ => .ok "B", true, .ok "m"⟩

/-- Ref resolution fails with an authentication error. -/
def envAuthFail : RemoteEnv :=
  ⟨.error .authFailed, .error .authFailed, fun _ _ => .ok "B", true, .ok "m"⟩

/-- Branch absent and the message-generator API key is missing. -/
def envNoKey : RemoteEnv :=
  ⟨.error .notFound, .error .notFound, fun _ _ => .ok "B", false, .ok "m"⟩

/-- A truncated remote listing with one blob. -/
def envTruncated : RemoteEnv :=
  ⟨.ok "HEAD", .ok ([⟨"x", "100644", "blob", "S"⟩], true),
   fun _ _ => .ok "B", true, .ok "m"⟩

/-- A truncated listing holding only the blob `src/orphan` (under the
`src` target prefix, with no local counterpart). -/
def envTruncOrphan : RemoteEnv :=
  ⟨.ok "HEAD", .ok ([⟨"src/orphan", "100644", "blob", "S"⟩], true),
   fun _ _ => .ok "B", true, .ok "m"⟩

/-- An untruncated listing holding only the blob `src2/file`. -/
def envSrc2 : RemoteEnv :=
  ⟨.ok "HEAD", .ok ([⟨"src2/file", "100644", "blob", "S"⟩], false),
   fun _ _ => .ok "B", true, .ok "m"⟩

/-- An untruncated listing with one blob under `src/` and one outside. -/
def envTwoBlobs : RemoteEnv :=
  ⟨.ok "HEAD",
   .ok ([⟨"src/a", "100644", "blob", "S1"⟩, ⟨"out/b", "100644", "blob", "S2"⟩],
        false),
   fun _ _ => .ok "B", true, .ok "m"⟩

/-- A remote whose single blob already matches the local file `hi.txt`
(content bytes `[104, 105]`). -/
def envMatchOne : RemoteEnv :=
  ⟨.ok "HEAD",
   .ok ([⟨"hi.txt", "100644", "blob", computeGitBlobSha [104, 105]⟩], false),
   fun _ _ => .ok "B", true, .ok "m"⟩

/-- Branch absent; the upload of remote path `f7` fails, others succeed. -/
def envFailF7 : RemoteEnv :=
  ⟨.error .notFound, .error .notFound,
   fun p _ => if p = "f7" then .error () else .ok "B", true, .ok "m"⟩

def files12W : List FileToSync :=
  (List.range 12).map (fun i => ⟨"f" ++ toString i, [i], false⟩)

def filesTwoW : List FileToSync := [⟨"a", [1], false⟩, ⟨"b", [2], false⟩]

def filesOneW : List FileToSync := [⟨"a", [1], false⟩]

def fileHiW : List FileToSync := [⟨"hi.txt", [104, 105], false⟩]

/-! # Theorems

## General lemmas on chunking -/

theorem chunksFuel_nil (n : Nat) : ∀ f, chunksFuel n f ([] : List α) = [] := by
  intro f
  cases f <;> rfl

theorem chunksFuel_congr (n : Nat) :
    ∀ (f₁ : Nat) (l : List α) (f₂ : Nat), l.length ≤ f₁ → l.length ≤ f₂ →
      chunksFuel n f₁ l = chunksFuel n f₂ l := by
  intro f₁
  induction f₁ with
  | zero =>
    intro l f₂ h₁ _
    have hl : l = [] := List.length_eq_zero.mp (Nat.le_zero.mp h₁)
    subst hl
    rw [chunksFuel_nil, chunksFuel_nil]
  | succ g ih =>
    intro l f₂ h₁ h₂
    cases l with
    | nil => rw [chunksFuel_nil, chunksFuel_nil]
    | cons x xs =>
      cases f₂ with
      | zero => simp at h₂
      | succ g₂ =>
        simp only [chunksFuel]
        congr 1
        apply ih
        · simp only [List.length_drop, List.length_cons] at *
          omega
        · simp only [List.length_drop, List.length_cons] at *
          omega

theorem chunksAux_nil (n : Nat) : chunksAux n ([] : List α) = [] := rfl

theorem chunksAux_cons (n : Nat) (x : α) (xs : List α) :
    chunksAux n (x :: xs)
      = ((x :: xs).take (n + 1)) :: chunksAux n ((x :: xs).drop (n + 1)) := by
  show chunksFuel n (xs.length + 1) (x :: xs) = _
  simp only [chunksFuel]
  congr 1
  apply chunksFuel_congr
  · simp only [List.length_drop, List.length_cons]
    omega
  · simp

theorem chunksAux_eq_of_ne_nil (n : Nat) (l : List α) (h : l ≠ []) :
    chunksAux n l = (l.take (n + 1)) :: chunksAux n (l.drop (n + 1)) := by
  cases l with
  | nil => exact absurd rfl h
  | cons x xs => exact chunksAux_cons n x xs

theorem chunksAux_join (n : Nat) :
    ∀ (k : Nat) (l : List α), l.length ≤ k → (chunksAux n l).flatten = l := by
  intro k
  induction k with
  | zero =>
    intro l h
    have : l = [] := List.length_eq_zero.mp (Nat.le_zero.mp h)
    subst this
    rfl
  | succ k ih =>
    intro l h
    cases l with
    | nil => rfl
    | cons x xs =>
      rw [chunksAux_cons, List.flatten_cons]
      rw [ih]
      · exact List.take_append_drop (n + 1) (x :: xs)
      · simp only [List.length_drop, List.length_cons] at *
        omega

/-! ## Sanitizer sanity checks (the spec's concrete normalization vectors) -/

theorem sanitize_vector_backslash : sanitizeGitPath "a\\b//c/" = "a/b/c" := by decide

theorem sanitize_vector_dotdot : sanitizeGitPath "../../x" = "x" := by decide

theorem sanitize_vector_empty : sanitizeGitPath "" = "" := by decide

theorem sanitize_vector_mixed : sanitizeGitPath "/a/./b/../c" = "a/b/c" := by decide

/-! ## SHA-1 sanity vectors -/

set_option maxRecDepth 100000 in
theorem sha1_empty_vector :
    (⟨bytesToHex (sha1Bytes [])⟩ : String) = "da39a3ee5e6b4b0d3255bfef95601890afd80709" := by
  decide

set_option maxRecDepth 100000 in
theorem sha1_abc_vector :
    (⟨bytesToHex (sha1Bytes [97, 98, 99])⟩ : String)
      = "a9993e364706816aba3e25717850c26c9cd0d89d" := by
  decide

/-! ## Path sanitizer lemmas

Structure of the sanitizer's output: it is a join of segments that are
non-empty, free of slashes and backslashes, and none of `.` or `..`;
joining a further already-sanitized non-empty path onto it with a slash
is a fixed point of the sanitizer.  These facts give injectivity of the
local-path-to-remote-path translation used by the analysis loop. -/

theorem splitOnSlash_cons (c : Char) (cs : List Char) {s : List Char}
    {r : List (List Char)} (h : splitOnSlash cs = s :: r) :
    splitOnSlash (c :: cs)
      = if c = '/' then [] :: s :: r else (c :: s) :: r := by
  simp only [splitOnSlash, h]

theorem splitOnSlash_ne_nil : ∀ cs : List Char, splitOnSlash cs ≠ [] := by
  intro cs
  induction cs with
  | nil => simp [splitOnSlash]
  | cons c cs ih =>
    cases h : splitOnSlash cs with
    | nil => exact absurd h ih
    | cons seg rest =>
      rw [splitOnSlash_cons c cs h]
      split <;> simp

theorem splitOnSlash_dest (cs : List Char) :
    ∃ s r, splitOnSlash cs = s :: r := by
  cases h : splitOnSlash cs with
  | nil => exact absurd h (splitOnSlash_ne_nil cs)
  | cons s r => exact ⟨s, r, rfl⟩

theorem splitOnSlash_append (a b : List Char) :
    splitOnSlash (a ++ '/' :: b) = splitOnSlash a ++ splitOnSlash b := by
  induction a with
  | nil =>
    obtain ⟨s, r, h⟩ := splitOnSlash_dest b
    rw [List.nil_append, splitOnSlash_cons '/' b h, if_pos rfl, h]
    rfl
  | cons c a ih =>
    obtain ⟨s, r, h⟩ := splitOnSlash_dest a
    have h2 : splitOnSlash (a ++ '/' :: b) = s :: (r ++ splitOnSlash b) := by
      rw [ih, h, List.cons_append]
    rw [List.cons_append, splitOnSlash_cons c _ h2, splitOnSlash_cons c a h]
    by_cases hc : c = '/' <;> simp [hc]

theorem no_slash_of_mem_splitOnSlash :
    ∀ {cs seg : List Char}, seg ∈ splitOnSlash cs → '/' ∉ seg := by
  intro cs
  induction cs with
  | nil =>
    intro seg hm
    simp [splitOnSlash] at hm
    simp [hm]
  | cons c cs ih =>
    intro seg hm
    obtain ⟨s, r, h⟩ := splitOnSlash_dest cs
    rw [splitOnSlash_cons c cs h] at hm
    by_cases hc : c = '/'
    · rw [if_pos hc] at hm
      rcases List.mem_cons.mp hm with hm | hm
      · simp [hm]
      · exact ih (h ▸ hm)
    · rw [if_neg hc] at hm
      rcases List.mem_cons.mp hm with hm | hm
      · subst hm
        intro hmem
        rcases List.mem_cons.mp hmem with hhd | htl
        · exact hc hhd.symm
        · exact ih (h ▸ List.mem_cons_self s r) htl
      · exact ih (h ▸ List.mem_cons_of_mem s hm)

theorem mem_of_mem_splitOnSlash :
    ∀ {cs seg : List Char}, seg ∈ splitOnSlash cs → ∀ c ∈ seg, c ∈ cs := by
  intro cs
  induction cs with
  | nil =>
    intro seg hm
    simp [splitOnSlash] at hm
    simp [hm]
  | cons c cs ih =>
    intro seg hm
    obtain ⟨s, r, h⟩ := splitOnSlash_dest cs
    rw [splitOnSlash_cons c cs h] at hm
    by_cases hc : c = '/'
    · rw [if_pos hc] at hm
      rcases List.mem_cons.mp hm with hm | hm
      · simp [hm]
      · intro x hx
        exact List.mem_cons_of_mem c (ih (h ▸ hm) x hx)
    · rw [if_neg hc] at hm
      rcases List.mem_cons.mp hm with hm | hm
      · subst hm
        intro x hx
        rcases List.mem_cons.mp hx with hhd | htl
        · exact hhd ▸ List.mem_cons_self c cs
        · exact List.mem_cons_of_mem c
            (ih (h ▸ List.mem_cons_self s r) x htl)
      · intro x hx
        exact List.mem_cons_of_mem c
          (ih (h ▸ List.mem_cons_of_mem s hm) x hx)

theorem splitOnSlash_no_slash {cs : List Char} (h : '/' ∉ cs) :
    splitOnSlash cs = [cs] := by
  induction cs with
  | nil => rfl
  | cons c cs ih =>
    have hc : c ≠ '/' := fun hc => h (hc ▸ List.mem_cons_self c cs)
    have hcs : '/' ∉ cs := fun hm => h (List.mem_cons_of_mem c hm)
    simp only [splitOnSlash, ih hcs]
    simp [fun hh => hc hh]

theorem joinSegs_cons (s : List Char) {L : List (List Char)} (h : L ≠ []) :
    joinSegs (s :: L) = s ++ '/' :: joinSegs L := by
  cases L with
  | nil => exact absurd rfl h
  | cons t M => rfl

theorem goodSeg_iff {s : List Char} :
    goodSeg s = true ↔ s ≠ [] ∧ s ≠ ['.'] ∧ s ≠ ['.', '.'] := by
  simp [goodSeg]

theorem joinSegs_ne_nil {L : List (List Char)} (h : L ≠ [])
    (hs : ∀ s ∈ L, s ≠ []) : joinSegs L ≠ [] := by
  cases L with
  | nil => exact absurd rfl h
  | cons s M =>
    cases M with
    | nil => exact hs s (List.mem_cons_self s [])
    | cons t M' => simp [joinSegs]

theorem splitOnSlash_joinSegs :
    ∀ {L : List (List Char)}, L ≠ [] → (∀ s ∈ L, '/' ∉ s) →
      splitOnSlash (joinSegs L) = L := by
  intro L
  induction L with
  | nil => intro h _; exact absurd rfl h
  | cons s M ih =>
    intro _ hs
    cases M with
    | nil =>
      show splitOnSlash s = [s]
      exact splitOnSlash_no_slash (hs s (List.mem_cons_self s []))
    | cons t M' =>
      rw [joinSegs_cons s (by simp), splitOnSlash_append,
        splitOnSlash_no_slash (hs s (List.mem_cons_self s _)),
        ih (by simp) (fun u hu => hs u (List.mem_cons_of_mem s hu))]
      rfl

theorem mem_joinSegs :
    ∀ {L : List (List Char)} {c : Char}, c ∈ joinSegs L →
      c = '/' ∨ ∃ s ∈ L, c ∈ s := by
  intro L
  induction L with
  | nil => intro c hc; simp [joinSegs] at hc
  | cons s M ih =>
    intro c hc
    cases M with
    | nil =>
      right
      exact ⟨s, List.mem_cons_self s [], hc⟩
    | cons t M' =>
      rw [joinSegs_cons s (by simp)] at hc
      rcases List.mem_append.mp hc with hc | hc
      · exact Or.inr ⟨s, List.mem_cons_self s _, hc⟩
      · rcases List.mem_cons.mp hc with hc | hc
        · exact Or.inl hc
        · rcases ih hc with hc | ⟨u, hu, hcu⟩
          · exact Or.inl hc
          · exact Or.inr ⟨u, List.mem_cons_of_mem s hu, hcu⟩

theorem joinSegs_append :
    ∀ {L M : List (List Char)}, L ≠ [] → M ≠ [] →
      joinSegs (L ++ M) = joinSegs L ++ '/' :: joinSegs M := by
  intro L
  induction L with
  | nil => intro _ h _; exact absurd rfl h
  | cons s L' ih =>
    intro M _ hM
    cases L' with
    | nil =>
      cases M with
      | nil => exact absurd rfl hM
      | cons t M' =>
        rw [List.cons_append, List.nil_append,
          joinSegs_cons s (by simp)]
        rfl
    | cons u L'' =>
      rw [List.cons_append, joinSegs_cons s (by simp),
        joinSegs_cons s (by simp), ih (by simp) hM]
      simp [List.cons_append]

theorem deback_ne_backslash (c : Char) : deback c ≠ '\\' := by
  unfold deback
  split
  · decide
  · assumption

theorem deback_eq_self {c : Char} (h : c ≠ '\\') : deback c = c := by
  simp [deback, h]

theorem map_deback_id {cs : List Char} (h : ∀ c ∈ cs, c ≠ '\\') :
    cs.map deback = cs := by
  induction cs with
  | nil => rfl
  | cons c cs ih =>
    rw [List.map_cons, deback_eq_self (h c (List.mem_cons_self c cs)),
      ih (fun x hx => h x (List.mem_cons_of_mem c hx))]

/-- The segments of the sanitizer's output are good, slash-free and
backslash-free. -/
theorem sanitize_segs_facts (cs : List Char) :
    ∀ s ∈ (splitOnSlash (cs.map deback)).filter goodSeg,
      goodSeg s = true ∧ '/' ∉ s ∧ '\\' ∉ s := by
  intro s hs
  have hmem := List.mem_of_mem_filter hs
  refine ⟨List.of_mem_filter hs, no_slash_of_mem_splitOnSlash hmem, ?_⟩
  intro hb
  have := mem_of_mem_splitOnSlash hmem '\\' hb
  rcases List.mem_map.mp this with ⟨c, _, hc⟩
  exact deback_ne_backslash c hc

theorem sanitizeChars_no_backslash (cs : List Char) :
    ∀ c ∈ sanitizeChars cs, c ≠ '\\' := by
  intro c hc
  rcases mem_joinSegs hc with hc | ⟨s, hs, hcs⟩
  · subst hc; decide
  · intro hb
    exact (sanitize_segs_facts cs s hs).2.2 (hb ▸ hcs)

/-- Joining segments that are good, slash-free and backslash-free is a
fixed point of the sanitizer. -/
theorem sanitizeChars_joinSegs_good {L : List (List Char)}
    (hgood : ∀ s ∈ L, goodSeg s = true) (hslash : ∀ s ∈ L, '/' ∉ s)
    (hback : ∀ s ∈ L, '\\' ∉ s) :
    sanitizeChars (joinSegs L) = joinSegs L := by
  cases L with
  | nil => rfl
  | cons s M =>
    have hnb : ∀ c ∈ joinSegs (s :: M), c ≠ '\\' := by
      intro c hc hb
      rcases mem_joinSegs hc with hc | ⟨u, hu, hcu⟩
      · exact absurd (hb ▸ hc) (by decide)
      · exact hback u hu (hb ▸ hcu)
    unfold sanitizeChars
    rw [map_deback_id hnb, splitOnSlash_joinSegs (by simp) hslash,
      List.filter_eq_self.mpr hgood]

theorem sanitizeChars_idem (cs : List Char) :
    sanitizeChars (sanitizeChars cs) = sanitizeChars cs := by
  have h := sanitize_segs_facts cs
  exact sanitizeChars_joinSegs_good (fun s hs => (h s hs).1)
    (fun s hs => (h s hs).2.1) (fun s hs => (h s hs).2.2)

/-- The key composition law: appending an already-sanitized non-empty
path to an already-sanitized prefix with a `'/'` in between is again
sanitized — except that an empty prefix contributes nothing. -/
theorem sanitizeChars_concat (t p : List Char) (ht : sanitizeChars t = t)
    (hp : sanitizeChars p = p) (hpne : p ≠ []) :
    sanitizeChars (t ++ '/' :: p) = if t = [] then p else t ++ '/' :: p := by
  obtain ⟨L, hLt, hLfacts⟩ :
      ∃ L, joinSegs L = t ∧ ∀ s ∈ L, goodSeg s = true ∧ '/' ∉ s ∧ '\\' ∉ s :=
    ⟨(splitOnSlash (t.map deback)).filter goodSeg, ht, sanitize_segs_facts t⟩
  obtain ⟨M, hMp, hMfacts⟩ :
      ∃ M, joinSegs M = p ∧ ∀ s ∈ M, goodSeg s = true ∧ '/' ∉ s ∧ '\\' ∉ s :=
    ⟨(splitOnSlash (p.map deback)).filter goodSeg, hp, sanitize_segs_facts p⟩
  have hMne : M ≠ [] := by
    intro hMnil
    apply hpne
    rw [← hMp, hMnil]
    rfl
  have hnb : ∀ c ∈ t ++ '/' :: p, c ≠ '\\' := by
    intro c hc hb
    subst hb
    rcases List.mem_append.mp hc with hc | hc
    · rw [← hLt] at hc
      rcases mem_joinSegs hc with h1 | ⟨s, hs, hcs⟩
      · exact absurd h1 (by decide)
      · exact (hLfacts s hs).2.2 hcs
    · rcases List.mem_cons.mp hc with h1 | h1
      · exact absurd h1 (by decide)
      · rw [← hMp] at h1
        rcases mem_joinSegs h1 with h2 | ⟨s, hs, hcs⟩
        · exact absurd h2 (by decide)
        · exact (hMfacts s hs).2.2 hcs
  unfold sanitizeChars
  rw [map_deback_id hnb, splitOnSlash_append]
  have hsp : splitOnSlash p = M := by
    rw [← hMp]
    exact splitOnSlash_joinSegs hMne (fun s hs => (hMfacts s hs).2.1)
  by_cases hLnil : L = []
  · have htnil : t = [] := by rw [← hLt, hLnil]; rfl
    rw [if_pos htnil, htnil,
      show splitOnSlash ([] : List Char) = [[]] from rfl, hsp,
      List.filter_append,
      show ([[]] : List (List Char)).filter goodSeg = [] from rfl,
      List.nil_append,
      List.filter_eq_self.mpr (fun s hs => (hMfacts s hs).1), hMp]
  · have htne : t ≠ [] := by
      rw [← hLt]
      exact joinSegs_ne_nil hLnil
        (fun s hs => (goodSeg_iff.mp ((hLfacts s hs).1)).1)
    rw [if_neg htne]
    have hst : splitOnSlash t = L := by
      rw [← hLt]
      exact splitOnSlash_joinSegs hLnil (fun s hs => (hLfacts s hs).2.1)
    rw [hst, hsp, List.filter_append,
      List.filter_eq_self.mpr (fun s hs => (hLfacts s hs).1),
      List.filter_eq_self.mpr (fun s hs => (hMfacts s hs).1),
      joinSegs_append hLnil hMne, hLt, hMp]

/-! ## String-level corollaries -/

theorem strData_append (a b : String) : (a ++ b).data = a.data ++ b.data := by
  cases a
  cases b
  rfl

theorem strExt {a b : String} (h : a.data = b.data) : a = b := by
  cases a
  cases b
  exact congrArg String.mk h

theorem sanitizeGitPath_data (s : String) :
    (sanitizeGitPath s).data = sanitizeChars s.data := rfl

/-- The spec's idempotence property of the normalizer. -/
theorem sanitizeGitPath_idem (s : String) :
    sanitizeGitPath (sanitizeGitPath s) = sanitizeGitPath s := by
  apply strExt
  rw [sanitizeGitPath_data, sanitizeGitPath_data]
  exact sanitizeChars_idem s.data

/-- Closed form of the combined remote path of an already-sanitized,
non-empty local path. -/
theorem combinedPath_eq (cfg : SyncConfig) (p : String)
    (hp : sanitizeGitPath p = p) (hpne : p ≠ "") :
    combinedPath cfg p =
      if cfg.targetPath = "" then p
      else if sanitizeGitPath cfg.targetPath = "" then p
      else sanitizeGitPath cfg.targetPath ++ "/" ++ p := by
  have hpd : sanitizeChars p.data = p.data := congrArg String.data hp
  have hpdne : p.data ≠ [] := by
    intro h
    apply hpne
    apply strExt
    simpa using h
  by_cases htp : cfg.targetPath = ""
  · rw [if_pos htp]
    apply strExt
    rw [show combinedPath cfg p = sanitizeGitPath (targetPref cfg ++ p) from rfl,
      sanitizeGitPath_data, strData_append,
      show targetPref cfg = "" from by simp [targetPref, htp]]
    simpa using hpd
  · rw [if_neg htp]
    apply strExt
    rw [show combinedPath cfg p = sanitizeGitPath (targetPref cfg ++ p) from rfl,
      sanitizeGitPath_data, strData_append,
      show targetPref cfg = sanitizeGitPath cfg.targetPath ++ "/" from by
        simp [targetPref, htp],
      strData_append]
    have hfix : sanitizeChars (sanitizeGitPath cfg.targetPath).data
        = (sanitizeGitPath cfg.targetPath).data := by
      rw [sanitizeGitPath_data]
      exact sanitizeChars_idem _
    have h1 : ((sanitizeGitPath cfg.targetPath).data ++ ("/" : String).data)
          ++ p.data
        = (sanitizeGitPath cfg.targetPath).data ++ '/' :: p.data := by
      simp
    rw [h1, sanitizeChars_concat _ _ hfix hpd hpdne]
    by_cases hsan : sanitizeGitPath cfg.targetPath = ""
    · rw [if_pos hsan,
        show (sanitizeGitPath cfg.targetPath).data = [] from by rw [hsan]]
      simp
    · rw [if_neg hsan]
      have hd : (sanitizeGitPath cfg.targetPath).data ≠ [] := by
        intro h
        apply hsan
        apply strExt
        simpa using h
      rw [if_neg hd, strData_append, strData_append]
      simp

/-- Distinct already-sanitized non-empty local paths have distinct
combined remote paths. -/
theorem combinedPath_inj (cfg : SyncConfig) {p₁ p₂ : String}
    (h₁ : sanitizeGitPath p₁ = p₁) (h₁n : p₁ ≠ "")
    (h₂ : sanitizeGitPath p₂ = p₂) (h₂n : p₂ ≠ "")
    (h : combinedPath cfg p₁ = combinedPath cfg p₂) : p₁ = p₂ := by
  rw [combinedPath_eq cfg p₁ h₁ h₁n, combinedPath_eq cfg p₂ h₂ h₂n] at h
  by_cases htp : cfg.targetPath = ""
  · rwa [if_pos htp, if_pos htp] at h
  · rw [if_neg htp, if_neg htp] at h
    by_cases hsan : sanitizeGitPath cfg.targetPath = ""
    · rwa [if_pos hsan, if_pos hsan] at h
    · rw [if_neg hsan, if_neg hsan] at h
      have hdata := congrArg String.data h
      rw [strData_append, strData_append, strData_append, strData_append]
        at hdata
      exact strExt (List.append_cancel_left hdata)

/-! ## Remote-map lemmas -/

theorem remoteMapLookup_some {tree : List GitTreeItem} {p sha : String}
    (h : remoteMapLookup tree p = some sha) :
    ∃ i ∈ tree, i.type = "blob" ∧ i.path = p ∧ i.sha = sha := by
  unfold remoteMapLookup at h
  rcases hfind : ((tree.filter (fun i => decide (i.type = "blob"))).reverse.find?
      (fun i => decide (i.path = p))) with _ | i
  · rw [hfind] at h
    exact Option.noConfusion h
  · rw [hfind] at h
    replace h : some i.sha = some sha := h
    have hmem := List.mem_of_find?_eq_some hfind
    have hpred := List.find?_some hfind
    rw [List.mem_reverse] at hmem
    have hf := List.mem_filter.mp hmem
    refine ⟨i, hf.1, ?_, ?_, Option.some.inj h⟩
    · simpa using hf.2
    · simpa using hpred

theorem remoteMapLookup_isSome {tree : List GitTreeItem} {i : GitTreeItem}
    (hmem : i ∈ tree) (hblob : i.type = "blob") :
    ∃ sha, remoteMapLookup tree i.path = some sha := by
  unfold remoteMapLookup
  rcases hfind : ((tree.filter (fun i => decide (i.type = "blob"))).reverse.find?
      (fun j => decide (j.path = i.path))) with _ | j
  · exfalso
    have hnone := List.find?_eq_none.mp hfind i ?_
    · simp at hnone
    · rw [List.mem_reverse, List.mem_filter]
      exact ⟨hmem, by simp [hblob]⟩
  · exact ⟨j.sha, by rw [hfind]; rfl⟩

/-! ## Analysis-loop step lemmas -/

theorem analyzeFiles_cons_notfound {pref : String} {tree : List GitTreeItem}
    {f : FileToSync} {rest : List FileToSync}
    (h : remoteMapLookup tree (sanitizeGitPath (pref ++ f.path)) = none) :
    analyzeFiles pref tree (f :: rest) =
      ⟨⟨f, sanitizeGitPath (pref ++ f.path), true⟩
          :: (analyzeFiles pref tree rest).toUpload,
        (analyzeFiles pref tree rest).skipped,
        (analyzeFiles pref tree rest).processed⟩ := by
  simp only [analyzeFiles, h]

theorem analyzeFiles_cons_falsy {pref : String} {tree : List GitTreeItem}
    {f : FileToSync} {rest : List FileToSync}
    (h : remoteMapLookup tree (sanitizeGitPath (pref ++ f.path)) = some "") :
    analyzeFiles pref tree (f :: rest) =
      ⟨⟨f, sanitizeGitPath (pref ++ f.path), true⟩
          :: (analyzeFiles pref tree rest).toUpload,
        (analyzeFiles pref tree rest).skipped,
        (analyzeFiles pref tree rest).processed⟩ := by
  simp [analyzeFiles, h]

theorem analyzeFiles_cons_skip {pref : String} {tree : List GitTreeItem}
    {f : FileToSync} {rest : List FileToSync} {sha : String}
    (h : remoteMapLookup tree (sanitizeGitPath (pref ++ f.path)) = some sha)
    (hne : sha ≠ "") (hloc : localShaOf f = some sha) :
    analyzeFiles pref tree (f :: rest) =
      ⟨(analyzeFiles pref tree rest).toUpload,
        sanitizeGitPath (pref ++ f.path)
          :: (analyzeFiles pref tree rest).skipped,
        sanitizeGitPath (pref ++ f.path)
          :: (analyzeFiles pref tree rest).processed⟩ := by
  simp only [analyzeFiles, h, if_neg hne, if_pos hloc]

theorem analyzeFiles_cons_modified {pref : String} {tree : List GitTreeItem}
    {f : FileToSync} {rest : List FileToSync} {sha : String}
    (h : remoteMapLookup tree (sanitizeGitPath (pref ++ f.path)) = some sha)
    (hne : sha ≠ "") (hloc : localShaOf f ≠ some sha) :
    analyzeFiles pref tree (f :: rest) =
      ⟨⟨f, sanitizeGitPath (pref ++ f.path), false⟩
          :: (analyzeFiles pref tree rest).toUpload,
        (analyzeFiles pref tree rest).skipped,
        sanitizeGitPath (pref ++ f.path)
          :: (analyzeFiles pref tree rest).processed⟩ := by
  simp only [analyzeFiles, h, if_neg hne, if_neg hloc]

/-! ## Analysis membership characterizations -/

theorem mem_skipped_analyze {pref : String} {tree : List GitTreeItem} :
    ∀ {files : List FileToSync} {p : String},
      (p ∈ (analyzeFiles pref tree files).skipped ↔
        ∃ f ∈ files, sanitizeGitPath (pref ++ f.path) = p ∧
          ∃ sha, remoteMapLookup tree p = some sha ∧ sha ≠ "" ∧
            localShaOf f = some sha) := by
  intro files
  induction files with
  | nil =>
    intro p
    constructor
    · intro h
      exact absurd h (by simp [analyzeFiles])
    · rintro ⟨f, hf, _⟩
      exact absurd hf (by simp)
  | cons f rest ih =>
    intro p
    rcases hlk : remoteMapLookup tree (sanitizeGitPath (pref ++ f.path))
      with _ | sha
    · rw [analyzeFiles_cons_notfound hlk]
      constructor
      · intro h
        obtain ⟨g, hg, hrest⟩ := ih.mp h
        exact ⟨g, List.mem_cons_of_mem f hg, hrest⟩
      · rintro ⟨g, hgmem, hcp, sha, hsome, hne, hloc⟩
        rcases List.mem_cons.mp hgmem with rfl | hg
        · rw [hcp] at hlk
          rw [hlk] at hsome
          exact Option.noConfusion hsome
        · exact ih.mpr ⟨g, hg, hcp, sha, hsome, hne, hloc⟩
    · by_cases hsha : sha = ""
      · subst hsha
        rw [analyzeFiles_cons_falsy hlk]
        constructor
        · intro h
          obtain ⟨g, hg, hrest⟩ := ih.mp h
          exact ⟨g, List.mem_cons_of_mem f hg, hrest⟩
        · rintro ⟨g, hgmem, hcp, sha', hsome, hne, hloc⟩
          rcases List.mem_cons.mp hgmem with rfl | hg
          · rw [hcp] at hlk
            rw [hlk] at hsome
            exact (hne (Option.some.inj hsome).symm).elim
          · exact ih.mpr ⟨g, hg, hcp, sha', hsome, hne, hloc⟩
      · by_cases hloc : localShaOf f = some sha
        · rw [analyzeFiles_cons_skip hlk hsha hloc]
          constructor
          · intro h
            rcases List.mem_cons.mp h with rfl | h
            · exact ⟨f, List.mem_cons_self f rest, rfl, sha, hlk, hsha, hloc⟩
            · obtain ⟨g, hg, hrest⟩ := ih.mp h
              exact ⟨g, List.mem_cons_of_mem f hg, hrest⟩
          · rintro ⟨g, hgmem, hcp, sha', hsome, hne', hloc'⟩
            rcases List.mem_cons.mp hgmem with rfl | hg
            · exact hcp ▸ List.mem_cons_self _ _
            · exact List.mem_cons_of_mem _
                (ih.mpr ⟨g, hg, hcp, sha', hsome, hne', hloc'⟩)
        · rw [analyzeFiles_cons_modified hlk hsha hloc]
          constructor
          · intro h
            obtain ⟨g, hg, hrest⟩ := ih.mp h
            exact ⟨g, List.mem_cons_of_mem f hg, hrest⟩
          · rintro ⟨g, hgmem, hcp, sha', hsome, hne', hloc'⟩
            rcases List.mem_cons.mp hgmem with rfl | hg
            · rw [hcp] at hlk
              rw [hlk] at hsome
              exact (hloc ((Option.some.inj hsome) ▸ hloc')).elim
            · exact ih.mpr ⟨g, hg, hcp, sha', hsome, hne', hloc'⟩

theorem mem_processed_analyze {pref : String} {tree : List GitTreeItem} :
    ∀ {files : List FileToSync} {p : String},
      (p ∈ (analyzeFiles pref tree files).processed ↔
        ∃ f ∈ files, sanitizeGitPath (pref ++ f.path) = p ∧
          ∃ sha, remoteMapLookup tree p = some sha ∧ sha ≠ "") := by
  intro files
  induction files with
  | nil =>
    intro p
    constructor
    · intro h
      exact absurd h (by simp [analyzeFiles])
    · rintro ⟨f, hf, _⟩
      exact absurd hf (by simp)
  | cons f rest ih =>
    intro p
    rcases hlk : remoteMapLookup tree (sanitizeGitPath (pref ++ f.path))
      with _ | sha
    · rw [analyzeFiles_cons_notfound hlk]
      constructor
      · intro h
        obtain ⟨g, hg, hrest⟩ := ih.mp h
        exact ⟨g, List.mem_cons_of_mem f hg, hrest⟩
      · rintro ⟨g, hgmem, hcp, sha, hsome, hne⟩
        rcases List.mem_cons.mp hgmem with rfl | hg
        · rw [hcp] at hlk
          rw [hlk] at hsome
          exact Option.noConfusion hsome
        · exact ih.mpr ⟨g, hg, hcp, sha, hsome, hne⟩
    · by_cases hsha : sha = ""
      · subst hsha
        rw [analyzeFiles_cons_falsy hlk]
        constructor
        · intro h
          obtain ⟨g, hg, hrest⟩ := ih.mp h
          exact ⟨g, List.mem_cons_of_mem f hg, hrest⟩
        · rintro ⟨g, hgmem, hcp, sha', hsome, hne⟩
          rcases List.mem_cons.mp hgmem with rfl | hg
          · rw [hcp] at hlk
            rw [hlk] at hsome
            exact (hne (Option.some.inj hsome).symm).elim
          · exact ih.mpr ⟨g, hg, hcp, sha', hsome, hne⟩
      · have step : (analyzeFiles pref tree (f :: rest)).processed
            = sanitizeGitPath (pref ++ f.path)
              :: (analyzeFiles pref tree rest).processed := by
          by_cases hloc : localShaOf f = some sha
          · rw [analyzeFiles_cons_skip hlk hsha hloc]
          · rw [analyzeFiles_cons_modified hlk hsha hloc]
        rw [step]
        constructor
        · intro h
          rcases List.mem_cons.mp h with rfl | h
          · exact ⟨f, List.mem_cons_self f rest, rfl, sha, hlk, hsha⟩
          · obtain ⟨g, hg, hrest⟩ := ih.mp h
            exact ⟨g, List.mem_cons_of_mem f hg, hrest⟩
        · rintro ⟨g, hgmem, hcp, sha', hsome, hne'⟩
          rcases List.mem_cons.mp hgmem with rfl | hg
          · exact hcp ▸ List.mem_cons_self _ _
          · exact List.mem_cons_of_mem _
              (ih.mpr ⟨g, hg, hcp, sha', hsome, hne'⟩)

theorem newPathsOf_mk_cons_true (f : FileToSync) (rp : String)
    (U : List UploadItem) (sk pr : List String) :
    newPathsOf ⟨⟨f, rp, true⟩ :: U, sk, pr⟩ = rp :: newPathsOf ⟨U, sk, pr⟩ := by
  simp [newPathsOf]

theorem newPathsOf_mk_cons_false (f : FileToSync) (rp : String)
    (U : List UploadItem) (sk pr : List String) :
    newPathsOf ⟨⟨f, rp, false⟩ :: U, sk, pr⟩ = newPathsOf ⟨U, sk, pr⟩ := by
  simp [newPathsOf]

theorem newPathsOf_proj (r : AnalysisResult) (x y : List String) :
    newPathsOf ⟨r.toUpload, x, y⟩ = newPathsOf r := rfl

theorem modPathsOf_mk_cons_true (f : FileToSync) (rp : String)
    (U : List UploadItem) (sk pr : List String) :
    modPathsOf ⟨⟨f, rp, true⟩ :: U, sk, pr⟩ = modPathsOf ⟨U, sk, pr⟩ := by
  simp [modPathsOf]

theorem modPathsOf_mk_cons_false (f : FileToSync) (rp : String)
    (U : List UploadItem) (sk pr : List String) :
    modPathsOf ⟨⟨f, rp, false⟩ :: U, sk, pr⟩ = rp :: modPathsOf ⟨U, sk, pr⟩ := by
  simp [modPathsOf]

theorem modPathsOf_proj (r : AnalysisResult) (x y : List String) :
    modPathsOf ⟨r.toUpload, x, y⟩ = modPathsOf r := rfl

theorem mem_newPaths_analyze {pref : String} {tree : List GitTreeItem} :
    ∀ {files : List FileToSync} {p : String},
      (p ∈ newPathsOf (analyzeFiles pref tree files) ↔
        ∃ f ∈ files, sanitizeGitPath (pref ++ f.path) = p ∧
          (remoteMapLookup tree p = none ∨
            remoteMapLookup tree p = some "")) := by
  intro files
  induction files with
  | nil =>
    intro p
    constructor
    · intro h
      exact absurd h (by simp [analyzeFiles, newPathsOf])
    · rintro ⟨f, hf, _⟩
      exact absurd hf (by simp)
  | cons f rest ih =>
    intro p
    rcases hlk : remoteMapLookup tree (sanitizeGitPath (pref ++ f.path))
      with _ | sha
    · rw [analyzeFiles_cons_notfound hlk, newPathsOf_mk_cons_true,
        newPathsOf_proj]
      constructor
      · intro h
        rcases List.mem_cons.mp h with rfl | h
        · exact ⟨f, List.mem_cons_self f rest, rfl, Or.inl hlk⟩
        · obtain ⟨g, hg, hrest⟩ := ih.mp h
          exact ⟨g, List.mem_cons_of_mem f hg, hrest⟩
      · rintro ⟨g, hgmem, hcp, hor⟩
        rcases List.mem_cons.mp hgmem with rfl | hg
        · exact hcp ▸ List.mem_cons_self _ _
        · exact List.mem_cons_of_mem _ (ih.mpr ⟨g, hg, hcp, hor⟩)
    · by_cases hsha : sha = ""
      · subst hsha
        rw [analyzeFiles_cons_falsy hlk, newPathsOf_mk_cons_true,
          newPathsOf_proj]
        constructor
        · intro h
          rcases List.mem_cons.mp h with rfl | h
          · exact ⟨f, List.mem_cons_self f rest, rfl, Or.inr hlk⟩
          · obtain ⟨g, hg, hrest⟩ := ih.mp h
            exact ⟨g, List.mem_cons_of_mem f hg, hrest⟩
        · rintro ⟨g, hgmem, hcp, hor⟩
          rcases List.mem_cons.mp hgmem with rfl | hg
          · exact hcp ▸ List.mem_cons_self _ _
          · exact List.mem_cons_of_mem _ (ih.mpr ⟨g, hg, hcp, hor⟩)
      · by_cases hloc : localShaOf f = some sha
        · rw [analyzeFiles_cons_skip hlk hsha hloc]
          rw [show (⟨(analyzeFiles pref tree rest).toUpload,
              sanitizeGitPath (pref ++ f.path)
                :: (analyzeFiles pref tree rest).skipped,
              sanitizeGitPath (pref ++ f.path)
                :: (analyzeFiles pref tree rest).processed⟩ : AnalysisResult)
            = ⟨(analyzeFiles pref tree rest).toUpload,
                sanitizeGitPath (pref ++ f.path)
                  :: (analyzeFiles pref tree rest).skipped,
                sanitizeGitPath (pref ++ f.path)
                  :: (analyzeFiles pref tree rest).processed⟩ from rfl,
            newPathsOf_proj]
          constructor
          · intro h
            obtain ⟨g, hg, hrest⟩ := ih.mp h
            exact ⟨g, List.mem_cons_of_mem f hg, hrest⟩
          · rintro ⟨g, hgmem, hcp, hor⟩
            rcases List.mem_cons.mp hgmem with rfl | hg
            · rw [hcp] at hlk
              rcases hor with hor | hor
              · rw [hlk] at hor
                exact Option.noConfusion hor
              · rw [hlk] at hor
                exact (hsha (Option.some.inj hor)).elim
            · exact ih.mpr ⟨g, hg, hcp, hor⟩
        · rw [analyzeFiles_cons_modified hlk hsha hloc,
            newPathsOf_mk_cons_false, newPathsOf_proj]
          constructor
          · intro h
            obtain ⟨g, hg, hrest⟩ := ih.mp h
            exact ⟨g, List.mem_cons_of_mem f hg, hrest⟩
          · rintro ⟨g, hgmem, hcp, hor⟩
            rcases List.mem_cons.mp hgmem with rfl | hg
            · rw [hcp] at hlk
              rcases hor with hor | hor
              · rw [hlk] at hor
                exact Option.noConfusion hor
              · rw [hlk] at hor
                exact (hsha (Option.some.inj hor)).elim
            · exact ih.mpr ⟨g, hg, hcp, hor⟩

theorem mem_modPaths_analyze {pref : String} {tree : List GitTreeItem} :
    ∀ {files : List FileToSync} {p : String},
      (p ∈ modPathsOf (analyzeFiles pref tree files) ↔
        ∃ f ∈ files, sanitizeGitPath (pref ++ f.path) = p ∧
          ∃ sha, remoteMapLookup tree p = some sha ∧ sha ≠ "" ∧
            localShaOf f ≠ some sha) := by
  intro files
  induction files with
  | nil =>
    intro p
    constructor
    · intro h
      exact absurd h (by simp [analyzeFiles, modPathsOf])
    · rintro ⟨f, hf, _⟩
      exact absurd hf (by simp)
  | cons f rest ih =>
    intro p
    rcases hlk : remoteMapLookup tree (sanitizeGitPath (pref ++ f.path))
      with _ | sha
    · rw [analyzeFiles_cons_notfound hlk, modPathsOf_mk_cons_true,
        modPathsOf_proj]
      constructor
      · intro h
        obtain ⟨g, hg, hrest⟩ := ih.mp h
        exact ⟨g, List.mem_cons_of_mem f hg, hrest⟩
      · rintro ⟨g, hgmem, hcp, sha', hsome, hne, hloc⟩
        rcases List.mem_cons.mp hgmem with rfl | hg
        · rw [hcp] at hlk
          rw [hlk] at hsome
          exact Option.noConfusion hsome
        · exact ih.mpr ⟨g, hg, hcp, sha', hsome, hne, hloc⟩
    · by_cases hsha : sha = ""
      · subst hsha
        rw [analyzeFiles_cons_falsy hlk, modPathsOf_mk_cons_true,
          modPathsOf_proj]
        constructor
        · intro h
          obtain ⟨g, hg, hrest⟩ := ih.mp h
          exact ⟨g, List.mem_cons_of_mem f hg, hrest⟩
        · rintro ⟨g, hgmem, hcp, sha', hsome, hne, hloc⟩
          rcases List.mem_cons.mp hgmem with rfl | hg
          · rw [hcp] at hlk
            rw [hlk] at hsome
            exact (hne (Option.some.inj hsome).symm).elim
          · exact ih.mpr ⟨g, hg, hcp, sha', hsome, hne, hloc⟩
      · by_cases hloc : localShaOf f = some sha
        · rw [analyzeFiles_cons_skip hlk hsha hloc]
          rw [show modPathsOf (⟨(analyzeFiles pref tree rest).toUpload,
              sanitizeGitPath (pref ++ f.path)
                :: (analyzeFiles pref tree rest).skipped,
              sanitizeGitPath (pref ++ f.path)
                :: (analyzeFiles pref tree rest).processed⟩ : AnalysisResult)
            = modPathsOf (analyzeFiles pref tree rest) from rfl]
          constructor
          · intro h
            obtain ⟨g, hg, hrest⟩ := ih.mp h
            exact ⟨g, List.mem_cons_of_mem f hg, hrest⟩
          · rintro ⟨g, hgmem, hcp, sha', hsome, hne, hloc'⟩
            rcases List.mem_cons.mp hgmem with rfl | hg
            · rw [hcp] at hlk
              rw [hlk] at hsome
              exact (hloc' ((Option.some.inj hsome) ▸ hloc)).elim
            · exact ih.mpr ⟨g, hg, hcp, sha', hsome, hne, hloc'⟩
        · rw [analyzeFiles_cons_modified hlk hsha hloc,
            modPathsOf_mk_cons_false, modPathsOf_proj]
          constructor
          · intro h
            rcases List.mem_cons.mp h with rfl | h
            · exact ⟨f, List.mem_cons_self f rest, rfl, sha, hlk, hsha, hloc⟩
            · obtain ⟨g, hg, hrest⟩ := ih.mp h
              exact ⟨g, List.mem_cons_of_mem f hg, hrest⟩
          · rintro ⟨g, hgmem, hcp, sha', hsome, hne, hloc'⟩
            rcases List.mem_cons.mp hgmem with rfl | hg
            · exact hcp ▸ List.mem_cons_self _ _
            · exact List.mem_cons_of_mem _
                (ih.mpr ⟨g, hg, hcp, sha', hsome, hne, hloc'⟩)

/-! ## Hash-output facts -/

theorem sha1Bytes_ne_nil (msg : List Nat) : sha1Bytes msg ≠ [] := by
  unfold sha1Bytes
  rcases h : (chunksAux 63 (sha1Pad msg)).foldl sha1Block sha1Init
    with ⟨h0, h1, h2, h3, h4⟩
  show bytesBE 4 h0 ++ bytesBE 4 h1 ++ bytesBE 4 h2 ++ bytesBE 4 h3
      ++ bytesBE 4 h4 ≠ []
  rw [show bytesBE 4 h0 = h0 / 2 ^ (8 * 3) % 256 :: bytesBE 3 h0 from rfl]
  simp

theorem computeGitBlobSha_ne_empty (b : List Nat) : computeGitBlobSha b ≠ "" := by
  intro h
  have hd : bytesToHex (sha1Bytes (gitBlobHeader b.length ++ b)) = [] :=
    congrArg String.data h
  rcases hsb : sha1Bytes (gitBlobHeader b.length ++ b) with _ | ⟨x, rest⟩
  · exact sha1Bytes_ne_nil _ hsb
  · rw [hsb] at hd
    exact List.noConfusion hd

/-- All-unchanged analysis: when every local file is readable and its
content address equals the remote blob id at its combined path, nothing
is scheduled for upload. -/
theorem analyzeFiles_all_match {pref : String} {tree : List GitTreeItem} :
    ∀ {files : List FileToSync},
      (∀ f ∈ files, f.hashReadFails = false ∧
        remoteMapLookup tree (sanitizeGitPath (pref ++ f.path))
          = some (computeGitBlobSha f.content)) →
      (analyzeFiles pref tree files).toUpload = [] := by
  intro files
  induction files with
  | nil => intro _; rfl
  | cons f rest ih =>
    intro h
    obtain ⟨hread, hlk⟩ := h f (List.mem_cons_self f rest)
    have hne : computeGitBlobSha f.content ≠ "" := computeGitBlobSha_ne_empty _
    have hloc : localShaOf f = some (computeGitBlobSha f.content) := by
      simp [localShaOf, hread]
    rw [analyzeFiles_cons_skip hlk hne hloc]
    exact ih (fun g hg => h g (List.mem_cons_of_mem f hg))

/-- The upload set lists (at most) one entry per local file, in file
order, keyed by the combined remote path. -/
theorem analyze_upload_paths_sublist {pref : String} {tree : List GitTreeItem} :
    ∀ files : List FileToSync,
      (((analyzeFiles pref tree files).toUpload.map (fun u => u.remotePath)).Sublist
        (files.map (fun f => sanitizeGitPath (pref ++ f.path)))) := by
  intro files
  induction files with
  | nil => simp [analyzeFiles]
  | cons f rest ih =>
    rcases hlk : remoteMapLookup tree (sanitizeGitPath (pref ++ f.path))
      with _ | sha
    · rw [analyzeFiles_cons_notfound hlk]
      exact List.Sublist.cons₂ _ ih
    · by_cases hsha : sha = ""
      · subst hsha
        rw [analyzeFiles_cons_falsy hlk]
        exact List.Sublist.cons₂ _ ih
      · by_cases hloc : localShaOf f = some sha
        · rw [analyzeFiles_cons_skip hlk hsha hloc]
          exact List.Sublist.cons _ ih
        · rw [analyzeFiles_cons_modified hlk hsha hloc]
          exact List.Sublist.cons₂ _ ih

/-! ## Upload-phase lemmas -/

theorem chunkFails_eq (cb : String → List Nat → Except Unit String) :
    ∀ c, chunkFails cb c = !(chunkOk cb c) := by
  intro c
  induction c with
  | nil => rfl
  | cons it rest ih =>
    show (!isOkB (cb it.remotePath it.file.content) || chunkFails cb rest)
      = !(isOkB (cb it.remotePath it.file.content) && chunkOk cb rest)
    rw [Bool.not_and, ih]

/-- The paths of the entries a chunk pushes are exactly the remote paths
of its successful items. -/
theorem chunkEntries_paths (cb : String → List Nat → Except Unit String) :
    ∀ c : List UploadItem,
      ((chunkEntries cb c).map (fun e => e.path))
        = (c.filter (fun it => isOkB (cb it.remotePath it.file.content))).map
            (fun it => it.remotePath) := by
  intro c
  induction c with
  | nil => rfl
  | cons it rest ih =>
    rcases h : cb it.remotePath it.file.content with e | sha
    · simp [chunkEntries, List.filterMap_cons, List.filter_cons, h, isOkB] at *
      exact ih
    · simp [chunkEntries, List.filterMap_cons, List.filter_cons, h, isOkB] at *
      exact ih

/-- A failing upload stops the batch loop: the run result is failure and
the attempted calls are exactly the batches up to and including the first
failing one. -/
theorem runChunks_fail (cb : String → List Nat → Except Unit String) :
    ∀ cs : List (List UploadItem), (∃ c ∈ cs, chunkFails cb c = true) →
      (runChunks cb cs).2.2.2 = false ∧
      (runChunks cb cs).1
        = ((cs.take (cs.findIdx (fun c => chunkFails cb c) + 1)).flatten).map
            (fun it => it.remotePath) := by
  intro cs
  induction cs with
  | nil =>
    rintro ⟨c, hc, _⟩
    exact absurd hc (by simp)
  | cons c rest ih =>
    rintro ⟨c', hc', hfail⟩
    by_cases hok : chunkOk cb c = true
    · have hcf : chunkFails cb c = false := by
        rw [chunkFails_eq, hok]
        rfl
      have hc'rest : c' ∈ rest := by
        rcases List.mem_cons.mp hc' with rfl | h
        · rw [hcf] at hfail
          exact Bool.noConfusion hfail
        · exact h
      obtain ⟨ihok, ihatt⟩ := ih ⟨c', hc'rest, hfail⟩
      have hstep : runChunks cb (c :: rest)
          = (chunkAttempted c ++ (runChunks cb rest).1,
             chunkEntries cb c ++ (runChunks cb rest).2.1,
             chunkLogs cb c ++ (runChunks cb rest).2.2.1,
             (runChunks cb rest).2.2.2) := by
        simp [runChunks, hok]
      rw [hstep]
      refine ⟨ihok, ?_⟩
      rw [show (c :: rest).findIdx (fun c => chunkFails cb c)
          = rest.findIdx (fun c => chunkFails cb c) + 1 from by
        rw [List.findIdx_cons, hcf]
        rfl]
      rw [List.take_succ_cons, List.flatten_cons, List.map_append]
      show chunkAttempted c ++ (runChunks cb rest).1 = _ ++ _
      rw [ihatt]
      rfl
    · have hcf : chunkFails cb c = true := by
        rw [chunkFails_eq]
        simp [Bool.eq_false_iff.mpr hok]
      have hstep : runChunks cb (c :: rest)
          = (chunkAttempted c, chunkEntries cb c, chunkLogs cb c, false) := by
        simp [runChunks, hok]
      rw [hstep]
      refine ⟨rfl, ?_⟩
      rw [show (c :: rest).findIdx (fun c => chunkFails cb c) = 0 from by
        rw [List.findIdx_cons, hcf]
        rfl]
      simp [chunkAttempted]

/-- An all-successful upload phase. -/
theorem runChunks_ok (cb : String → List Nat → Except Unit String) :
    ∀ cs : List (List UploadItem), (∀ c ∈ cs, chunkOk cb c = true) →
      (runChunks cb cs).2.2.2 = true := by
  intro cs
  induction cs with
  | nil => intro _; rfl
  | cons c rest ih =>
    intro h
    have hok := h c (List.mem_cons_self c rest)
    have hstep : runChunks cb (c :: rest)
        = (chunkAttempted c ++ (runChunks cb rest).1,
           chunkEntries cb c ++ (runChunks cb rest).2.1,
           chunkLogs cb c ++ (runChunks cb rest).2.2.1,
           (runChunks cb rest).2.2.2) := by
      simp [runChunks, hok]
    rw [hstep]
    exact ih (fun d hd => h d (List.mem_cons_of_mem c hd))

/-- The 12-item batching shape of the spec: exactly three batches of
5, 5 and 2. -/
theorem chunksAux4_len12 (l : List UploadItem) (h : l.length = 12) :
    (chunksAux 4 l).map List.length = [5, 5, 2] := by
  have h1 : l ≠ [] := by
    intro hh
    rw [hh] at h
    simp at h
  rw [chunksAux_eq_of_ne_nil 4 l h1]
  have hd5 : (l.drop 5).length = 7 := by simp [h]
  have h2 : l.drop 5 ≠ [] := by
    intro hh
    rw [hh] at hd5
    simp at hd5
  rw [show (4 : Nat) + 1 = 5 from rfl, chunksAux_eq_of_ne_nil 4 _ h2]
  have hd10 : ((l.drop 5).drop 5).length = 2 := by simp [h]
  have h3 : (l.drop 5).drop 5 ≠ [] := by
    intro hh
    rw [hh] at hd10
    simp at hd10
  rw [chunksAux_eq_of_ne_nil 4 _ h3]
  have hd15 : (((l.drop 5).drop 5).drop 5) = [] := by
    have : ((l.drop 5).drop 5).length ≤ 5 := by rw [hd10]; omega
    exact List.drop_eq_nil_of_le this
  rw [hd15, chunksAux_nil]
  simp [List.length_take, h, hd5, hd10]

/-! ## Bridging: outcome fields of a run -/

theorem startSync_analysis_fields (cfg : SyncConfig) (files : List FileToSync)
    (env : RemoteEnv) :
    (startSync cfg files env).filesSkipped = (analysisOf cfg files env).skipped ∧
    (startSync cfg files env).filesToUpload
      = (analysisOf cfg files env).toUpload ∧
    (startSync cfg files env).filesToDelete = deleteOf cfg files env ∧
    (startSync cfg files env).processedRemotePaths
      = (analysisOf cfg files env).processed := by
  simp only [startSync]
  split
  · next hg =>
    have hg2 : files.length = 0 ∧ cfg.deleteMissing = false := by
      simpa using hg
    have hf : files = [] := List.length_eq_zero.mp hg2.1
    have hdm : cfg.deleteMissing = false := hg2.2
    subst hf
    refine ⟨rfl, rfl, ?_, rfl⟩
    show ([] : List String) = deleteOf cfg [] env
    unfold deleteOf deleteSetOf
    rw [hdm]
    rfl
  · next hg =>
    split
    · next hsc =>
      have hsc2 : (analysisOf cfg files env).toUpload.length = 0
          ∧ (deleteOf cfg files env).length = 0 := by
        simpa using hsc
      have h1 : (analysisOf cfg files env).toUpload = [] :=
        List.length_eq_zero.mp hsc2.1
      have h2 : deleteOf cfg files env = [] :=
        List.length_eq_zero.mp hsc2.2
      exact ⟨rfl, h1.symm, h2.symm, rfl⟩
    · next hsc =>
      split
      · next hok => exact ⟨rfl, rfl, rfl, rfl⟩
      · next hok => exact ⟨rfl, rfl, rfl, rfl⟩

theorem mem_deleteSetOf {cfg : SyncConfig} {pref : String}
    {tree : List GitTreeItem} {truncated : Bool} {processed : List String}
    {p : String} :
    p ∈ deleteSetOf cfg pref tree truncated processed ↔
      cfg.deleteMissing = true ∧ truncated = false ∧
        ∃ i ∈ tree, i.type = "blob" ∧ i.path = p ∧
          inPref pref i.path = true ∧ p ∉ processed := by
  unfold deleteSetOf
  by_cases h : (cfg.deleteMissing && !truncated) = true
  · rw [if_pos h]
    obtain ⟨hdm, htr⟩ : cfg.deleteMissing = true ∧ truncated = false := by
      simpa using h
    constructor
    · intro hm
      rcases List.mem_map.mp hm with ⟨i, hi, hip⟩
      have hf := List.mem_filter.mp hi
      obtain ⟨⟨ht, hpre⟩, hnp⟩ :
          (i.type = "blob" ∧ inPref pref i.path = true) ∧ i.path ∉ processed := by
        simpa using hf.2
      exact ⟨hdm, htr, i, hf.1, ht, hip, hpre, hip ▸ hnp⟩
    · rintro ⟨_, _, i, hi, ht, hip, hpre, hnp⟩
      apply List.mem_map.mpr
      refine ⟨i, List.mem_filter.mpr ⟨hi, ?_⟩, hip⟩
      have hnp' : i.path ∉ processed := by
        rw [hip]
        exact hnp
      simp [ht, hpre, hnp']
  · rw [if_neg h]
    constructor
    · intro hm
      exact absurd hm (List.not_mem_nil p)
    · rintro ⟨hdm, htr, _⟩
      exact absurd (by rw [hdm, htr]; rfl) h

/-! ## Run-shape lemmas: the terminal branches of startSync -/

theorem startSync_early (cfg : SyncConfig) (env : RemoteEnv)
    (hdm : cfg.deleteMissing = false) :
    startSync cfg [] env =
      { state := .IDLE, logs := [(.warning, .noFilesSelected)],
        resolvedHead := none, filesToUpload := [], filesSkipped := [],
        filesToDelete := [], processedRemotePaths := [],
        attemptedUploads := [], uploadedEntries := [], finalTree := [],
        treeCreated := false, commitCreated := none,
        refUpdateCalled := false, refCreateCalled := false } := by
  simp only [startSync]
  rw [if_pos (by simp [hdm])]

theorem startSync_guard_false {cfg : SyncConfig} {files : List FileToSync}
    (hguard : files ≠ [] ∨ cfg.deleteMissing = true) :
    ¬ ((files.length = 0 && !cfg.deleteMissing) = true) := by
  intro hc
  simp only [Bool.and_eq_true, decide_eq_true_eq, Bool.not_eq_true'] at hc
  rcases hguard with h | h
  · exact h (List.length_eq_zero.mp hc.1)
  · rw [h] at hc
    exact Bool.noConfusion hc.2

theorem startSync_shortCircuit (cfg : SyncConfig) (files : List FileToSync)
    (env : RemoteEnv) (hguard : files ≠ [] ∨ cfg.deleteMissing = true)
    (hupl : (analysisOf cfg files env).toUpload = [])
    (hdel : deleteOf cfg files env = []) :
    startSync cfg files env =
      { state := .SUCCESS,
        logs := preLogs cfg files env ++ [(.success, .upToDate)],
        resolvedHead := resolvedHeadOf (branchOf cfg) env,
        filesToUpload := [],
        filesSkipped := (analysisOf cfg files env).skipped,
        filesToDelete := [],
        processedRemotePaths := (analysisOf cfg files env).processed,
        attemptedUploads := [], uploadedEntries := [], finalTree := [],
        treeCreated := false, commitCreated := none,
        refUpdateCalled := false, refCreateCalled := false } := by
  simp only [startSync]
  rw [if_neg (startSync_guard_false hguard), if_pos (by simp [hupl, hdel])]

theorem startSync_uploadFail (cfg : SyncConfig) (files : List FileToSync)
    (env : RemoteEnv) (hguard : files ≠ [] ∨ cfg.deleteMissing = true)
    (hne : ¬((analysisOf cfg files env).toUpload = []
        ∧ deleteOf cfg files env = []))
    (hok : (runChunks env.createBlob
        (chunksAux 4 (analysisOf cfg files env).toUpload)).2.2.2 = false) :
    startSync cfg files env =
      { state := .ERROR,
        logs := preLogs cfg files env
          ++ (runChunks env.createBlob
              (chunksAux 4 (analysisOf cfg files env).toUpload)).2.2.1
          ++ [(.error, .runFailed)],
        resolvedHead := resolvedHeadOf (branchOf cfg) env,
        filesToUpload := (analysisOf cfg files env).toUpload,
        filesSkipped := (analysisOf cfg files env).skipped,
        filesToDelete := deleteOf cfg files env,
        processedRemotePaths := (analysisOf cfg files env).processed,
        attemptedUploads := (runChunks env.createBlob
          (chunksAux 4 (analysisOf cfg files env).toUpload)).1,
        uploadedEntries := (runChunks env.createBlob
          (chunksAux 4 (analysisOf cfg files env).toUpload)).2.1,
        finalTree := [], treeCreated := false, commitCreated := none,
        refUpdateCalled := false, refCreateCalled := false } := by
  have hsc : ¬ (((analysisOf cfg files env).toUpload.length = 0
      && (deleteOf cfg files env).length = 0) = true) := by
    intro hc
    simp only [Bool.and_eq_true, decide_eq_true_eq] at hc
    exact hne ⟨List.length_eq_zero.mp hc.1, List.length_eq_zero.mp hc.2⟩
  simp only [startSync]
  rw [if_neg (startSync_guard_false hguard), if_neg hsc]
  rcases hrc : runChunks env.createBlob
      (chunksAux 4 (analysisOf cfg files env).toUpload)
    with ⟨att, ent, lg, ok⟩
  have hokf : ok = false := by
    rw [hrc] at hok
    exact hok
  subst hokf
  rfl

theorem startSync_commit (cfg : SyncConfig) (files : List FileToSync)
    (env : RemoteEnv) (hguard : files ≠ [] ∨ cfg.deleteMissing = true)
    (hne : ¬((analysisOf cfg files env).toUpload = []
        ∧ deleteOf cfg files env = []))
    (hok : (runChunks env.createBlob
        (chunksAux 4 (analysisOf cfg files env).toUpload)).2.2.2 = true) :
    startSync cfg files env =
      { state := .SUCCESS,
        logs := preLogs cfg files env
          ++ (runChunks env.createBlob
              (chunksAux 4 (analysisOf cfg files env).toUpload)).2.2.1
          ++ [(.success, .syncCompleted)],
        resolvedHead := resolvedHeadOf (branchOf cfg) env,
        filesToUpload := (analysisOf cfg files env).toUpload,
        filesSkipped := (analysisOf cfg files env).skipped,
        filesToDelete := deleteOf cfg files env,
        processedRemotePaths := (analysisOf cfg files env).processed,
        attemptedUploads := (runChunks env.createBlob
          (chunksAux 4 (analysisOf cfg files env).toUpload)).1,
        uploadedEntries := (runChunks env.createBlob
          (chunksAux 4 (analysisOf cfg files env).toUpload)).2.1,
        finalTree := assembleTree cfg (targetPref cfg)
          (baseTreeOf (branchOf cfg) env).1
          (runChunks env.createBlob
            (chunksAux 4 (analysisOf cfg files env).toUpload)).2.1
          (deleteOf cfg files env) (analysisOf cfg files env).processed,
        treeCreated := true,
        commitCreated := some (commitMessageOf cfg files env,
          if truthy (resolvedHeadOf (branchOf cfg) env)
          then resolvedHeadOf (branchOf cfg) env else none),
        refUpdateCalled := truthy (resolvedHeadOf (branchOf cfg) env),
        refCreateCalled := !truthy (resolvedHeadOf (branchOf cfg) env) } := by
  have hsc : ¬ (((analysisOf cfg files env).toUpload.length = 0
      && (deleteOf cfg files env).length = 0) = true) := by
    intro hc
    simp only [Bool.and_eq_true, decide_eq_true_eq] at hc
    exact hne ⟨List.length_eq_zero.mp hc.1, List.length_eq_zero.mp hc.2⟩
  simp only [startSync]
  rw [if_neg (startSync_guard_false hguard), if_neg hsc]
  rcases hrc : runChunks env.createBlob
      (chunksAux 4 (analysisOf cfg files env).toUpload)
    with ⟨att, ent, lg, ok⟩
  have hokt : ok = true := by
    rw [hrc] at hok
    exact hok
  subst hokt
  rfl

theorem runChunks_entries_sublist (cb : String → List Nat → Except Unit String) :
    ∀ cs : List (List UploadItem),
      (((runChunks cb cs).2.1).map (fun e => e.path)).Sublist
        ((cs.flatten).map (fun it => it.remotePath)) := by
  intro cs
  induction cs with
  | nil => simp [runChunks]
  | cons c rest ih =>
    by_cases hok : chunkOk cb c = true
    · have hstep : runChunks cb (c :: rest)
          = (chunkAttempted c ++ (runChunks cb rest).1,
             chunkEntries cb c ++ (runChunks cb rest).2.1,
             chunkLogs cb c ++ (runChunks cb rest).2.2.1,
             (runChunks cb rest).2.2.2) := by
        simp [runChunks, hok]
      rw [hstep]
      show ((chunkEntries cb c ++ (runChunks cb rest).2.1).map
        (fun e => e.path)).Sublist _
      rw [List.map_append, List.flatten_cons, List.map_append,
        chunkEntries_paths]
      exact List.Sublist.append
        (List.Sublist.map _ (List.filter_sublist c)) ih
    · have hstep : runChunks cb (c :: rest)
          = (chunkAttempted c, chunkEntries cb c, chunkLogs cb c, false) := by
        simp [runChunks, hok]
      rw [hstep]
      show ((chunkEntries cb c).map (fun e => e.path)).Sublist _
      rw [List.flatten_cons, List.map_append, chunkEntries_paths]
      exact List.Sublist.trans
        (List.Sublist.map _ (List.filter_sublist c))
        (List.sublist_append_left _ _)

theorem assembleTree_map_path (cfg : SyncConfig) (pref : String)
    (tree : List GitTreeItem) (ue : List TreeEntry) (ds pr : List String) :
    (assembleTree cfg pref tree ue ds pr).map (fun e => e.path)
      = ue.map (fun e => e.path)
        ++ (tree.filter (fun t =>
            decide (t.type = "blob")
              && !(decide (t.path ∈ ue.map (fun x => x.path)))
              && !(decide (t.path ∈ ds))
              && !(decide (pref ≠ "") && jsStartsWith t.path pref
                    && !(decide (t.path ∈ pr)) && cfg.deleteMissing))).map
            (fun t => t.path) := by
  unfold assembleTree
  rw [List.map_append, List.map_map]
  rfl

/-! ## The claims -/

/-- C1: for every run — any configuration, any remote snapshot whose blob
ids are non-empty, and any local file set whose paths are normalized,
non-empty and pairwise distinct (the form `handleFolderSelect` hands to
the engine for a selection without sanitization collisions) — the
Analyzing pass classifies each combined local path into exactly one of
unchanged (skipped), new, or modified: their union is exactly the set of
combined local paths, no path lands in two classes, and the delete set is
disjoint from all three and holds only remote blob paths that pass the
prefix scoping check. -/
theorem claim_C1_analysis_partition (cfg : SyncConfig)
    (files : List FileToSync) (env : RemoteEnv)
    (hSan : ∀ f ∈ files, sanitizeGitPath f.path = f.path ∧ f.path ≠ "")
    (hNodup : (files.map (fun f => f.path)).Nodup)
    (hSha : ∀ i ∈ (baseTreeOf (branchOf cfg) env).1, i.sha ≠ "") :
    (∀ p, p ∈ files.map (fun f => combinedPath cfg f.path) ↔
        (p ∈ (startSync cfg files env).filesSkipped ∨
         p ∈ newPathsOf (analysisOf cfg files env) ∨
         p ∈ modPathsOf (analysisOf cfg files env))) ∧
    (∀ p, p ∈ (startSync cfg files env).filesSkipped →
        p ∉ newPathsOf (analysisOf cfg files env)) ∧
    (∀ p, p ∈ (startSync cfg files env).filesSkipped →
        p ∉ modPathsOf (analysisOf cfg files env)) ∧
    (∀ p, p ∈ newPathsOf (analysisOf cfg files env) →
        p ∉ modPathsOf (analysisOf cfg files env)) ∧
    (∀ p, p ∈ (startSync cfg files env).filesToDelete →
        p ∉ (startSync cfg files env).filesSkipped ∧
        p ∉ newPathsOf (analysisOf cfg files env) ∧
        p ∉ modPathsOf (analysisOf cfg files env)) ∧
    (∀ p, p ∈ (startSync cfg files env).filesToDelete →
        inPref (targetPref cfg) p = true ∧
        ∃ i ∈ (baseTreeOf (branchOf cfg) env).1,
          i.type = "blob" ∧ i.path = p) := by
  obtain ⟨hsk, hup, hdel, hproc⟩ := startSync_analysis_fields cfg files env
  have hinj : ∀ f ∈ files, ∀ g ∈ files,
      combinedPath cfg f.path = combinedPath cfg g.path → f = g := by
    intro f hf g hg hfg
    have h1 := hSan f hf
    have h2 := hSan g hg
    have hpath : f.path = g.path :=
      combinedPath_inj cfg h1.1 h1.2 h2.1 h2.2 hfg
    exact List.inj_on_of_nodup_map hNodup hf hg hpath
  refine ⟨?_, ?_, ?_, ?_, ?_, ?_⟩
  · intro p
    constructor
    · intro hp
      rcases List.mem_map.mp hp with ⟨f, hf, hfp⟩
      rcases hlk : remoteMapLookup (baseTreeOf (branchOf cfg) env).1 p
        with _ | sha
      · exact Or.inr (Or.inl (mem_newPaths_analyze.mpr
          ⟨f, hf, hfp, Or.inl hlk⟩))
      · by_cases hsha : sha = ""
        · subst hsha
          exact Or.inr (Or.inl (mem_newPaths_analyze.mpr
            ⟨f, hf, hfp, Or.inr hlk⟩))
        · by_cases hloc : localShaOf f = some sha
          · refine Or.inl ?_
            rw [hsk]
            exact mem_skipped_analyze.mpr ⟨f, hf, hfp, sha, hlk, hsha, hloc⟩
          · exact Or.inr (Or.inr (mem_modPaths_analyze.mpr
              ⟨f, hf, hfp, sha, hlk, hsha, hloc⟩))
    · intro hp
      rcases hp with hp | hp | hp
      · rw [hsk] at hp
        obtain ⟨f, hf, hfp, _⟩ := mem_skipped_analyze.mp hp
        exact List.mem_map.mpr ⟨f, hf, hfp⟩
      · obtain ⟨f, hf, hfp, _⟩ := mem_newPaths_analyze.mp hp
        exact List.mem_map.mpr ⟨f, hf, hfp⟩
      · obtain ⟨f, hf, hfp, _⟩ := mem_modPaths_analyze.mp hp
        exact List.mem_map.mpr ⟨f, hf, hfp⟩
  · intro p hpS hpN
    rw [hsk] at hpS
    obtain ⟨f, hf, hfp, sha, hsome, hne, _⟩ := mem_skipped_analyze.mp hpS
    obtain ⟨g, hg, hgp, hor⟩ := mem_newPaths_analyze.mp hpN
    rcases hor with hor | hor
    · rw [hor] at hsome
      exact Option.noConfusion hsome
    · rw [hor] at hsome
      exact hne (Option.some.inj hsome).symm
  · intro p hpS hpM
    rw [hsk] at hpS
    obtain ⟨f, hf, hfp, sha, hsome, hne, hloc⟩ := mem_skipped_analyze.mp hpS
    obtain ⟨g, hg, hgp, sha', hsome', hne', hloc'⟩ :=
      mem_modPaths_analyze.mp hpM
    have hfg : f = g := hinj f hf g hg (hfp.trans hgp.symm)
    subst hfg
    rw [hsome] at hsome'
    exact hloc' ((Option.some.inj hsome') ▸ hloc)
  · intro p hpN hpM
    obtain ⟨g, hg, hgp, hor⟩ := mem_newPaths_analyze.mp hpN
    obtain ⟨f, hf, hfp, sha', hsome', hne', _⟩ := mem_modPaths_analyze.mp hpM
    rcases hor with hor | hor
    · rw [hor] at hsome'
      exact Option.noConfusion hsome'
    · rw [hor] at hsome'
      exact hne' (Option.some.inj hsome').symm
  · intro p hpD
    rw [hdel] at hpD
    obtain ⟨hdm, htr, i, hi, hty, hip, hpre, hnp⟩ := mem_deleteSetOf.mp hpD
    refine ⟨?_, ?_, ?_⟩
    · intro hpS
      rw [hsk] at hpS
      obtain ⟨f, hf, hfp, sha, hsome, hne, _⟩ := mem_skipped_analyze.mp hpS
      exact hnp (mem_processed_analyze.mpr ⟨f, hf, hfp, sha, hsome, hne⟩)
    · intro hpN
      obtain ⟨g, hg, hgp, hor⟩ := mem_newPaths_analyze.mp hpN
      obtain ⟨sha, hsome⟩ := remoteMapLookup_isSome hi hty
      rw [hip] at hsome
      obtain ⟨j, hj, hjty, hjp, hjsha⟩ := remoteMapLookup_some hsome
      have hshane : sha ≠ "" := hjsha ▸ hSha j hj
      rcases hor with hor | hor
      · rw [hor] at hsome
        exact Option.noConfusion hsome
      · rw [hor] at hsome
        exact hshane (Option.some.inj hsome).symm
    · intro hpM
      obtain ⟨g, hg, hgp, sha', hsome', hne', _⟩ :=
        mem_modPaths_analyze.mp hpM
      exact hnp (mem_processed_analyze.mpr ⟨g, hg, hgp, sha', hsome', hne'⟩)
  · intro p hpD
    rw [hdel] at hpD
    obtain ⟨hdm, htr, i, hi, hty, hip, hpre, hnp⟩ := mem_deleteSetOf.mp hpD
    exact ⟨hip ▸ hpre, i, hi, hty, hip⟩

set_option maxRecDepth 400000 in
/-- C2: the content hasher is deterministic (a pure function of the
content bytes), it agrees on every input with `gitBlobShaSpec` — the
direct transcription of the spec's words: SHA-1 of the ASCII string
`"blob "`, the decimal byte length, one NUL byte, and the content,
rendered as lowercase hex — and the empty content hashes to Git's
documented empty-blob hash. -/
theorem claim_C2_blob_hash :
    (∀ b : List Nat, computeGitBlobSha b = gitBlobShaSpec b) ∧
    computeGitBlobSha [] = "e69de29bb2d1d6434b8b29ae775ad8c2e48c5391" := by
  constructor
  · intro b
    have harg : gitBlobHeader b.length ++ b
        = ("blob ".data.map Char.toNat)
          ++ ((toString b.length).data.map Char.toNat) ++ [0] ++ b := by
      unfold gitBlobHeader
      rw [strData_append, List.map_append]
    unfold computeGitBlobSha gitBlobShaSpec
    rw [harg]
  · decide

/-- C3: whenever some scheduled upload's blob creation fails, the run
terminates in ERROR with no tree creation, no commit, and no ref
create/update; the upload set is processed in batches of five (twelve
files give batch sizes 5, 5, 2), and the attempted blob creations are
exactly the batches up to and including the first failing one — no later
batch starts. -/
theorem claim_C3_upload_failure_aborts (cfg : SyncConfig)
    (files : List FileToSync) (env : RemoteEnv)
    (hfail : ∃ it ∈ (analysisOf cfg files env).toUpload,
        isOkB (env.createBlob it.remotePath it.file.content) = false) :
    (startSync cfg files env).state = SyncState.ERROR ∧
    (startSync cfg files env).treeCreated = false ∧
    (startSync cfg files env).commitCreated = none ∧
    (startSync cfg files env).refUpdateCalled = false ∧
    (startSync cfg files env).refCreateCalled = false ∧
    ((startSync cfg files env).filesToUpload.length = 12 →
      (chunksAux 4 (startSync cfg files env).filesToUpload).map List.length
        = [5, 5, 2]) ∧
    (startSync cfg files env).attemptedUploads
      = (((chunksAux 4 (startSync cfg files env).filesToUpload).take
          ((chunksAux 4 (startSync cfg files env).filesToUpload).findIdx
            (fun c => chunkFails env.createBlob c) + 1)).flatten).map
          (fun it => it.remotePath) := by
  have hne : (analysisOf cfg files env).toUpload ≠ [] := by
    rcases hfail with ⟨it, hit, _⟩
    intro h
    rw [h] at hit
    exact absurd hit (List.not_mem_nil it)
  have hfilesne : files ≠ [] := by
    intro h
    subst h
    exact hne rfl
  have hchunk : ∃ c ∈ chunksAux 4 (analysisOf cfg files env).toUpload,
      chunkFails env.createBlob c = true := by
    rcases hfail with ⟨it, hit, hbad⟩
    have hjoin := chunksAux_join 4 (analysisOf cfg files env).toUpload.length
      (analysisOf cfg files env).toUpload le_rfl
    have hmem : it ∈ (chunksAux 4 (analysisOf cfg files env).toUpload).flatten := by
      rw [hjoin]
      exact hit
    rcases List.mem_flatten.mp hmem with ⟨c, hc, hitc⟩
    refine ⟨c, hc, ?_⟩
    unfold chunkFails
    rw [List.any_eq_true]
    exact ⟨it, hitc, by rw [hbad]; rfl⟩
  obtain ⟨hok, hatt⟩ := runChunks_fail env.createBlob _ hchunk
  rw [startSync_uploadFail cfg files env (Or.inl hfilesne)
    (fun hc => hne hc.1) hok]
  exact ⟨rfl, rfl, rfl, rfl, rfl,
    fun h12 => chunksAux4_len12 _ h12, hatt⟩

/-- C3 witness: twelve new files against an absent branch with the upload
of `f7` (second batch) failing. -/
theorem claim_C3_witness :
    (∃ it ∈ (analysisOf cfgPlain files12W envFailF7).toUpload,
        isOkB (envFailF7.createBlob it.remotePath it.file.content) = false) ∧
    (startSync cfgPlain files12W envFailF7).state = SyncState.ERROR :=
  ⟨by decide,
    (claim_C3_upload_failure_aborts cfgPlain files12W envFailF7 (by decide)).1⟩

set_option maxRecDepth 1000000 in
/-- C4 counterexample: delete-missing on, target prefix `src`, truncated
listing holding the blob `src/orphan` with no local counterpart.  The
delete set is empty and the warning is logged, but `src/orphan` is
nonetheless omitted from the final tree and a commit is created: the
assembly-stage drop of line 360 has no truncation guard. -/
theorem claim_C4_counterexample :
    (cfgSrc.deleteMissing = true) ∧
    ((startSync cfgSrc filesOneW envTruncOrphan).filesToDelete = []) ∧
    ((LogLevel.warning, LogMsg.repoTooLarge)
      ∈ (startSync cfgSrc filesOneW envTruncOrphan).logs) ∧
    ("src/orphan" ∉ filesOneW.map
      (fun f => sanitizeGitPath (targetPref cfgSrc ++ f.path))) ∧
    ("src/orphan" ∉ (startSync cfgSrc filesOneW envTruncOrphan).finalTree.map
      (fun e => e.path)) ∧
    ((startSync cfgSrc filesOneW envTruncOrphan).commitCreated ≠ none) := by
  refine ⟨by decide, by decide, by decide, by decide, by decide, by decide⟩

/-- C4 (amended): when delete-missing is requested but the recursive
listing comes back truncated, the delete set is empty whatever the remote
content and the downgrade warning is logged; the assembly-stage drop is
NOT disabled, however: with a non-empty target path, every in-prefix path
with no local counterpart is still omitted from the final tree. -/
theorem claim_C4_truncated_disables_delete (cfg : SyncConfig)
    (files : List FileToSync) (env : RemoteEnv) (sha : String)
    (tree : List GitTreeItem)
    (hdm : cfg.deleteMissing = true)
    (href : env.refRaw = .ok sha)
    (htree : env.treeRaw = .ok (tree, true)) :
    (startSync cfg files env).filesToDelete = [] ∧
    (LogLevel.warning, LogMsg.repoTooLarge) ∈ (startSync cfg files env).logs ∧
    (cfg.targetPath ≠ "" →
      ∀ p, jsStartsWith p (targetPref cfg) = true →
        p ∉ files.map (fun f => sanitizeGitPath (targetPref cfg ++ f.path)) →
        p ∉ (startSync cfg files env).finalTree.map (fun e => e.path)) := by
  have htr : baseTreeOf (branchOf cfg) env = (tree, true) := by
    unfold baseTreeOf getRef
    rw [href, htree]
  have hdel : deleteOf cfg files env = [] := by
    unfold deleteOf deleteSetOf
    rw [htr]
    simp
  have hwarn : (LogLevel.warning, LogMsg.repoTooLarge) ∈ preLogs cfg files env := by
    unfold preLogs
    rw [htr]
    simp [hdm]
  obtain ⟨_, _, hdelf, _⟩ := startSync_analysis_fields cfg files env
  refine ⟨by rw [hdelf]; exact hdel, ?_, ?_⟩
  · by_cases hsc : (analysisOf cfg files env).toUpload = []
        ∧ deleteOf cfg files env = []
    · rw [startSync_shortCircuit cfg files env (Or.inr hdm) hsc.1 hsc.2]
      exact List.mem_append_left _ hwarn
    · by_cases hok : (runChunks env.createBlob
          (chunksAux 4 (analysisOf cfg files env).toUpload)).2.2.2 = true
      · rw [startSync_commit cfg files env (Or.inr hdm) hsc hok]
        exact List.mem_append_left _ (List.mem_append_left _ hwarn)
      · rw [startSync_uploadFail cfg files env (Or.inr hdm) hsc
          (Bool.eq_false_iff.mpr hok)]
        exact List.mem_append_left _ (List.mem_append_left _ hwarn)
  · intro htp p hpre hploc
    have hnproc : p ∉ (analysisOf cfg files env).processed := by
      intro hproc
      obtain ⟨f, hf, hcp, _⟩ := mem_processed_analyze.mp hproc
      exact hploc (List.mem_map.mpr ⟨f, hf, hcp⟩)
    by_cases hsc : (analysisOf cfg files env).toUpload = []
        ∧ deleteOf cfg files env = []
    · rw [startSync_shortCircuit cfg files env (Or.inr hdm) hsc.1 hsc.2]
      exact List.not_mem_nil p
    · by_cases hok : (runChunks env.createBlob
          (chunksAux 4 (analysisOf cfg files env).toUpload)).2.2.2 = true
      · rw [startSync_commit cfg files env (Or.inr hdm) hsc hok]
        intro hmem
        have hmem2 : p ∈ (assembleTree cfg (targetPref cfg)
            (baseTreeOf (branchOf cfg) env).1
            ((runChunks env.createBlob
              (chunksAux 4 (analysisOf cfg files env).toUpload)).2.1)
            (deleteOf cfg files env)
            ((analysisOf cfg files env).processed)).map
              (fun e => e.path) := hmem
        rw [assembleTree_map_path] at hmem2
        rcases List.mem_append.mp hmem2 with hup | hkept
        · have hsub1 := runChunks_entries_sublist env.createBlob
            (chunksAux 4 (analysisOf cfg files env).toUpload)
          rw [chunksAux_join 4 (analysisOf cfg files env).toUpload.length
            (analysisOf cfg files env).toUpload le_rfl] at hsub1
          have hsub2 := @analyze_upload_paths_sublist (targetPref cfg)
            ((baseTreeOf (branchOf cfg) env).1) files
          exact hploc ((hsub1.trans hsub2).subset hup)
        · rcases List.mem_map.mp hkept with ⟨t2, ht2, hp2⟩
          have hf2 := (List.mem_filter.mp ht2).2
          rw [Bool.and_eq_true, Bool.and_eq_true, Bool.and_eq_true] at hf2
          obtain ⟨⟨⟨_, _⟩, _⟩, hBlast⟩ := hf2
          rw [Bool.not_eq_true'] at hBlast
          have h1 : decide (targetPref cfg ≠ "") = true := by
            rw [decide_eq_true_eq]
            unfold targetPref
            rw [if_pos htp]
            intro hcontra
            have hd := congrArg String.data hcontra
            rw [strData_append] at hd
            have hd2 : (sanitizeGitPath cfg.targetPath).data ++ ['/']
                = ([] : List Char) := hd
            have hlen : (sanitizeGitPath cfg.targetPath).data.length + 1 = 0 := by
              have hl := congrArg List.length hd2
              rw [List.length_append] at hl
              exact hl
            exact Nat.succ_ne_zero _ hlen
          have h2 : jsStartsWith t2.path (targetPref cfg) = true := by
            rw [hp2]
            exact hpre
          have h3 : decide (t2.path ∈ (analysisOf cfg files env).processed)
              = false := by
            rw [decide_eq_false_iff_not, hp2]
            exact hnproc
          rw [h1, h2, h3, hdm] at hBlast
          exact Bool.noConfusion hBlast
      · rw [startSync_uploadFail cfg files env (Or.inr hdm) hsc
          (Bool.eq_false_iff.mpr hok)]
        exact List.not_mem_nil p

set_option maxRecDepth 1000000 in
/-- C4 witness: one local file, delete-missing on, target prefix `src`,
truncated listing with the orphan blob. -/
theorem claim_C4_witness :
    (cfgSrc.deleteMissing = true ∧
     envTruncOrphan.refRaw = .ok "HEAD" ∧
     envTruncOrphan.treeRaw
       = .ok ([⟨"src/orphan", "100644", "blob", "S"⟩], true) ∧
     cfgSrc.targetPath ≠ "" ∧
     jsStartsWith "src/orphan" (targetPref cfgSrc) = true ∧
     "src/orphan" ∉ filesOneW.map
       (fun f => sanitizeGitPath (targetPref cfgSrc ++ f.path))) ∧
    ((startSync cfgSrc filesOneW envTruncOrphan).filesToDelete = [] ∧
     "src/orphan" ∉ (startSync cfgSrc filesOneW envTruncOrphan).finalTree.map
       (fun e => e.path)) :=
  ⟨⟨by decide, rfl, rfl, by decide, by decide, by decide⟩,
    ⟨(claim_C4_truncated_disables_delete cfgSrc filesOneW envTruncOrphan
        "HEAD" [⟨"src/orphan", "100644", "blob", "S"⟩]
        (by decide) rfl rfl).1,
     (claim_C4_truncated_disables_delete cfgSrc filesOneW envTruncOrphan
        "HEAD" [⟨"src/orphan", "100644", "blob", "S"⟩]
        (by decide) rfl rfl).2.2 (by decide) "src/orphan" (by decide)
        (by decide)⟩⟩

/-- C5: a run that passes the selection guard, in which every local file
is readable and already matches the remote by content address at its
combined path, and whose computed delete set is empty, uploads no blob,
deletes no path, creates no tree, commit or ref mutation, and terminates
in SUCCESS. -/
theorem claim_C5_noop_success (cfg : SyncConfig) (files : List FileToSync)
    (env : RemoteEnv)
    (hguard : files ≠ [] ∨ cfg.deleteMissing = true)
    (hmatch : ∀ f ∈ files, f.hashReadFails = false ∧
        remoteMapLookup (baseTreeOf (branchOf cfg) env).1
          (sanitizeGitPath (targetPref cfg ++ f.path))
          = some (computeGitBlobSha f.content))
    (hdel : deleteOf cfg files env = []) :
    (startSync cfg files env).state = SyncState.SUCCESS ∧
    (startSync cfg files env).filesToUpload = [] ∧
    (startSync cfg files env).filesToDelete = [] ∧
    (startSync cfg files env).attemptedUploads = [] ∧
    (startSync cfg files env).treeCreated = false ∧
    (startSync cfg files env).commitCreated = none ∧
    (startSync cfg files env).refUpdateCalled = false ∧
    (startSync cfg files env).refCreateCalled = false := by
  have hupl : (analysisOf cfg files env).toUpload = [] :=
    analyzeFiles_all_match hmatch
  rw [startSync_shortCircuit cfg files env hguard hupl hdel]
  exact ⟨rfl, rfl, rfl, rfl, rfl, rfl, rfl, rfl⟩

set_option maxRecDepth 1000000 in
/-- C5 witness: one local file whose content address equals the remote
blob id at its path. -/
theorem claim_C5_witness :
    ((fileHiW ≠ [] ∨ cfgPlain.deleteMissing = true) ∧
     (∀ f ∈ fileHiW, f.hashReadFails = false ∧
        remoteMapLookup (baseTreeOf (branchOf cfgPlain) envMatchOne).1
          (sanitizeGitPath (targetPref cfgPlain ++ f.path))
          = some (computeGitBlobSha f.content)) ∧
     deleteOf cfgPlain fileHiW envMatchOne = []) ∧
    (startSync cfgPlain fileHiW envMatchOne).state = SyncState.SUCCESS :=
  ⟨⟨Or.inl (by decide), by decide, by decide⟩,
    (claim_C5_noop_success cfgPlain fileHiW envMatchOne (Or.inl (by decide))
      (by decide) (by decide)).1⟩

/-- C1 witness: the hypotheses hold for a concrete two-file run against an
absent branch, and the theorem instantiates there. -/
theorem claim_C1_witness :
    ((∀ f ∈ filesTwoW, sanitizeGitPath f.path = f.path ∧ f.path ≠ "") ∧
     ((filesTwoW.map (fun f => f.path)).Nodup) ∧
     (∀ i ∈ (baseTreeOf (branchOf cfgPlain) envEmptyRemote).1, i.sha ≠ "")) ∧
    (∀ p, p ∈ filesTwoW.map (fun f => combinedPath cfgPlain f.path) ↔
        (p ∈ (startSync cfgPlain filesTwoW envEmptyRemote).filesSkipped ∨
         p ∈ newPathsOf (analysisOf cfgPlain filesTwoW envEmptyRemote) ∨
         p ∈ modPathsOf (analysisOf cfgPlain filesTwoW envEmptyRemote))) :=
  ⟨⟨by decide, by decide, by decide⟩,
    (claim_C1_analysis_partition cfgPlain filesTwoW envEmptyRemote
      (by decide) (by decide) (by decide)).1⟩

/-- Every entry of the assembled final tree is either an uploaded entry
or a surviving original remote blob entry — one whose path was not
re-uploaded and not scheduled for deletion. -/
theorem assembleTree_mem (cfg : SyncConfig) (pref : String)
    (tree : List GitTreeItem) (ue : List TreeEntry) (ds pr : List String) :
    ∀ e ∈ assembleTree cfg pref tree ue ds pr,
      e ∈ ue ∨
        (∃ t ∈ tree, t.type = "blob" ∧ e = ⟨t.path, t.mode, t.type, t.sha⟩) ∧
        e.path ∉ ue.map (fun x => x.path) ∧ e.path ∉ ds := by
  intro e he
  unfold assembleTree at he
  rcases List.mem_append.mp he with he | he
  · exact Or.inl he
  · right
    rcases List.mem_map.mp he with ⟨t, ht, hte⟩
    have hf := List.mem_filter.mp ht
    have h2 := hf.2
    rw [Bool.and_eq_true, Bool.and_eq_true, Bool.and_eq_true] at h2
    obtain ⟨⟨⟨hA, hB⟩, hC⟩, _⟩ := h2
    have hblob : t.type = "blob" := by simpa using hA
    have hnup : t.path ∉ ue.map (fun x => x.path) := by
      rw [Bool.not_eq_true', decide_eq_false_iff_not] at hB
      exact hB
    have hndel : t.path ∉ ds := by
      rw [Bool.not_eq_true', decide_eq_false_iff_not] at hC
      exact hC
    have hpe : e.path = t.path := by
      rw [← hte]
    exact ⟨⟨t, hf.1, hblob, hte.symm⟩, hpe ▸ hnup, hpe ▸ hndel⟩

/-- C10: when the local selection is empty the run proceeds only with
delete-missing enabled — otherwise it stops before Scanning with a
warning and performs nothing — and in an empty-local run over an
untruncated listing every in-scope remote blob path is scheduled for
deletion and omitted from the final tree, producing a commit (in the
SUCCESS state) whenever that set is non-empty. -/
theorem claim_C10_empty_local_run (cfg : SyncConfig) (env : RemoteEnv) :
    (cfg.deleteMissing = false →
      (startSync cfg [] env).state = SyncState.IDLE ∧
      (startSync cfg [] env).logs
        = [(LogLevel.warning, LogMsg.noFilesSelected)] ∧
      (startSync cfg [] env).commitCreated = none ∧
      (startSync cfg [] env).treeCreated = false ∧
      (startSync cfg [] env).attemptedUploads = [] ∧
      (startSync cfg [] env).refUpdateCalled = false ∧
      (startSync cfg [] env).refCreateCalled = false) ∧
    (∀ sha tree, cfg.deleteMissing = true → env.refRaw = .ok sha →
      env.treeRaw = .ok (tree, false) →
      (startSync cfg [] env).filesToDelete
        = (tree.filter (fun i => decide (i.type = "blob")
            && inPref (targetPref cfg) i.path)).map (fun i => i.path) ∧
      (∀ e ∈ (startSync cfg [] env).finalTree,
        e.path ∉ (startSync cfg [] env).filesToDelete) ∧
      ((startSync cfg [] env).filesToDelete ≠ [] →
        ((startSync cfg [] env).commitCreated).isSome = true ∧
        (startSync cfg [] env).state = SyncState.SUCCESS)) := by
  constructor
  · intro hdm
    rw [startSync_early cfg env hdm]
    exact ⟨rfl, rfl, rfl, rfl, rfl, rfl, rfl⟩
  · intro sha tree hdm href htree
    have hbt : baseTreeOf (branchOf cfg) env = (tree, false) := by
      unfold baseTreeOf getRef
      rw [href, htree]
    have hdel : deleteOf cfg [] env
        = (tree.filter (fun i => decide (i.type = "blob")
            && inPref (targetPref cfg) i.path)).map (fun i => i.path) := by
      unfold deleteOf deleteSetOf
      rw [hbt]
      rw [if_pos (by simp [hdm])]
      congr 1
      apply List.filter_congr
      intro i hi
      simp
      intro _ _
      exact List.not_mem_nil i.path
    obtain ⟨_, _, hdelf, _⟩ := startSync_analysis_fields cfg [] env
    refine ⟨by rw [hdelf]; exact hdel, ?_, ?_⟩
    · by_cases hdele : deleteOf cfg [] env = []
      · rw [startSync_shortCircuit cfg [] env (Or.inr hdm) rfl hdele]
        intro e he
        exact absurd he (List.not_mem_nil e)
      · have hok : (runChunks env.createBlob
            (chunksAux 4 (analysisOf cfg [] env).toUpload)).2.2.2 = true := rfl
        rw [startSync_commit cfg [] env (Or.inr hdm)
          (fun hc => hdele hc.2) hok]
        intro e he
        rcases assembleTree_mem cfg (targetPref cfg)
          (baseTreeOf (branchOf cfg) env).1 _ _ _ e he with he2 | ⟨_, _, hnd⟩
        · exact absurd he2 (List.not_mem_nil e)
        · exact hnd
    · intro hdelne
      rw [hdelf] at hdelne
      have hok : (runChunks env.createBlob
          (chunksAux 4 (analysisOf cfg [] env).toUpload)).2.2.2 = true := rfl
      rw [startSync_commit cfg [] env (Or.inr hdm)
        (fun hc => hdelne hc.2) hok]
      exact ⟨rfl, rfl⟩

/-- C10 witness: target prefix `src`, remote blobs `src/a` and `out/b`,
empty local selection, delete-missing on. -/
theorem claim_C10_witness :
    (cfgSrc.deleteMissing = true ∧
     envTwoBlobs.refRaw = .ok "HEAD" ∧
     envTwoBlobs.treeRaw
      = .ok ([⟨"src/a", "100644", "blob", "S1"⟩,
              ⟨"out/b", "100644", "blob", "S2"⟩], false)) ∧
    (startSync cfgSrc [] envTwoBlobs).filesToDelete
      = (([⟨"src/a", "100644", "blob", "S1"⟩,
           ⟨"out/b", "100644", "blob", "S2"⟩] : List GitTreeItem).filter
          (fun i => decide (i.type = "blob")
            && inPref (targetPref cfgSrc) i.path)).map (fun i => i.path) :=
  ⟨⟨by decide, rfl, rfl⟩,
    ((claim_C10_empty_local_run cfgSrc envTwoBlobs).2 "HEAD"
      [⟨"src/a", "100644", "blob", "S1"⟩, ⟨"out/b", "100644", "blob", "S2"⟩]
      (by decide) rfl rfl).1⟩

/-- C7 counterexample: auto commit-message generation is requested and the
collaborator is unavailable (no API key); the run still completes, but the
commit is created with `chore: sync files via GitSync Mobile`, not with
the templated `chore: sync <N> files` the claim asserts (here `N = 2`). -/
theorem claim_C7_counterexample :
    (startSync cfgAuto filesTwoW envNoKey).state = SyncState.SUCCESS ∧
    (startSync cfgAuto filesTwoW envNoKey).commitCreated
      = some ("chore: sync files via GitSync Mobile", none) ∧
    "chore: sync files via GitSync Mobile"
      ≠ "chore: sync "
        ++ toString (startSync cfgAuto filesTwoW envNoKey).filesToUpload.length
        ++ " files" := by
  refine ⟨by decide, by decide, by decide⟩

/-- C7 (amended): a failing or unavailable message-generation collaborator
never aborts the run — the terminal state is independent of the generator
oracle — and when auto-generation is requested, a commit created while
the collaborator is unavailable (missing key) carries its fixed message
`chore: sync files via GitSync Mobile`, and one created after a
generation failure carries `chore: batch update via GitSync Mobile`;
the `chore: sync <N> files` template is used only when auto-generation
is disabled. -/
theorem claim_C7_amended (cfg : SyncConfig) (files : List FileToSync)
    (env : RemoteEnv) :
    (∀ k₁ r₁ k₂ r₂,
      (startSync cfg files
        { env with geminiKeyPresent := k₁, geminiRaw := r₁ }).state
      = (startSync cfg files
        { env with geminiKeyPresent := k₂, geminiRaw := r₂ }).state) ∧
    (cfg.autoCommitMessage = true → env.geminiKeyPresent = false →
      ∀ m par, (startSync cfg files env).commitCreated = some (m, par) →
        m = "chore: sync files via GitSync Mobile") ∧
    (cfg.autoCommitMessage = true → env.geminiKeyPresent = true →
      env.geminiRaw = .error () →
      ∀ m par, (startSync cfg files env).commitCreated = some (m, par) →
        m = "chore: batch update via GitSync Mobile") ∧
    (cfg.autoCommitMessage = false →
      ∀ m par, (startSync cfg files env).commitCreated = some (m, par) →
        m = "chore: sync "
          ++ toString (analysisOf cfg files env).toUpload.length
          ++ " files") := by
  have hmsg : ∀ m par, (startSync cfg files env).commitCreated = some (m, par) →
      m = commitMessageOf cfg files env := by
    intro m par hcc
    by_cases hga : files = [] ∧ cfg.deleteMissing = false
    · obtain ⟨hf, hdm⟩ := hga
      subst hf
      rw [startSync_early cfg env hdm] at hcc
      exact Option.noConfusion hcc
    · have hguard : files ≠ [] ∨ cfg.deleteMissing = true := by
        by_cases hf : files = []
        · right
          rcases Bool.eq_false_or_eq_true cfg.deleteMissing with h | h
          · exact h
          · exact absurd ⟨hf, h⟩ hga
        · exact Or.inl hf
      by_cases hsc : (analysisOf cfg files env).toUpload = []
          ∧ deleteOf cfg files env = []
      · rw [startSync_shortCircuit cfg files env hguard hsc.1 hsc.2] at hcc
        exact Option.noConfusion hcc
      · by_cases hok : (runChunks env.createBlob
            (chunksAux 4 (analysisOf cfg files env).toUpload)).2.2.2 = true
        · rw [startSync_commit cfg files env hguard hsc hok] at hcc
          exact congrArg Prod.fst (Option.some.inj hcc) |>.symm
        · rw [startSync_uploadFail cfg files env hguard hsc
            (Bool.eq_false_iff.mpr hok)] at hcc
          exact Option.noConfusion hcc
  refine ⟨?_, ?_, ?_, ?_⟩
  · intro k₁ r₁ k₂ r₂
    by_cases hga : files = [] ∧ cfg.deleteMissing = false
    · obtain ⟨hf, hdm⟩ := hga
      subst hf
      rw [startSync_early cfg _ hdm, startSync_early cfg _ hdm]
    · have hguard : files ≠ [] ∨ cfg.deleteMissing = true := by
        by_cases hf : files = []
        · right
          rcases Bool.eq_false_or_eq_true cfg.deleteMissing with h | h
          · exact h
          · exact absurd ⟨hf, h⟩ hga
        · exact Or.inl hf
      by_cases hsc : (analysisOf cfg files env).toUpload = []
          ∧ deleteOf cfg files env = []
      · rw [startSync_shortCircuit cfg files
            { env with geminiKeyPresent := k₁, geminiRaw := r₁ }
            hguard hsc.1 hsc.2,
          startSync_shortCircuit cfg files
            { env with geminiKeyPresent := k₂, geminiRaw := r₂ }
            hguard hsc.1 hsc.2]
      · by_cases hok : (runChunks env.createBlob
            (chunksAux 4 (analysisOf cfg files env).toUpload)).2.2.2 = true
        · rw [startSync_commit cfg files
              { env with geminiKeyPresent := k₁, geminiRaw := r₁ }
              hguard hsc hok,
            startSync_commit cfg files
              { env with geminiKeyPresent := k₂, geminiRaw := r₂ }
              hguard hsc hok]
        · rw [startSync_uploadFail cfg files
              { env with geminiKeyPresent := k₁, geminiRaw := r₁ }
              hguard hsc (Bool.eq_false_iff.mpr hok),
            startSync_uploadFail cfg files
              { env with geminiKeyPresent := k₂, geminiRaw := r₂ }
              hguard hsc (Bool.eq_false_iff.mpr hok)]
  · intro hauto hkey m par hcc
    rw [hmsg m par hcc]
    unfold commitMessageOf generateCommitMessage
    rw [hauto, hkey]
    rfl
  · intro hauto hkey hraw m par hcc
    rw [hmsg m par hcc]
    unfold commitMessageOf generateCommitMessage
    rw [hauto, hkey, hraw]
    rfl
  · intro hauto m par hcc
    rw [hmsg m par hcc]
    unfold commitMessageOf
    rw [hauto]
    rfl

/-- C7 witness: the amended fallback clause instantiated on a concrete
run with the key missing. -/
theorem claim_C7_witness :
    (cfgAuto.autoCommitMessage = true ∧ envNoKey.geminiKeyPresent = false ∧
     (startSync cfgAuto filesTwoW envNoKey).commitCreated
        = some ("chore: sync files via GitSync Mobile", none)) ∧
    ("chore: sync files via GitSync Mobile" : String)
      = "chore: sync files via GitSync Mobile" :=
  ⟨⟨by decide, by decide, by decide⟩,
    (claim_C7_amended cfgAuto filesTwoW envNoKey).2.1 (by decide) (by decide)
      "chore: sync files via GitSync Mobile" none (by decide)⟩

/-- C6 counterexample: an authentication failure during ref resolution is
not distinguished from branch-absent — `getRef` throws the same
branch-not-found error for both — and the engine enters first-push mode
(no resolved head, root commit, ref creation) on the authentication
failure as well, contradicting "only in the branch-absent case". -/
theorem claim_C6_counterexample :
    getRef "main" (.error ApiError.authFailed)
      = getRef "main" (.error ApiError.notFound) ∧
    (startSync cfgPlain filesOneW envAuthFail).resolvedHead = none ∧
    (startSync cfgPlain filesOneW envAuthFail).refCreateCalled = true ∧
    (startSync cfgPlain filesOneW envAuthFail).commitCreated
      = some ("chore: sync 1 files", none) := by
  refine ⟨rfl, by decide, by decide, by decide⟩

/-- C6 (amended): `githubService.getRef` collapses every underlying
failure — authentication failure included — into one branch-not-found
error, and the engine enters first-push mode on any ref-resolution
failure: a run whose ref lookup fails with any error kind behaves
exactly like one failing with not-found. -/
theorem claim_C6_amended (branch : String) (e₁ e₂ : ApiError)
    (cfg : SyncConfig) (files : List FileToSync) (env : RemoteEnv)
    (he : env.refRaw = .error e₁) :
    getRef branch (.error e₁) = getRef branch (.error e₂) ∧
    resolvedHeadOf (branchOf cfg) env = none ∧
    startSync cfg files env
      = startSync cfg files { env with refRaw := .error ApiError.notFound } := by
  refine ⟨rfl, ?_, ?_⟩
  · unfold resolvedHeadOf getRef
    rw [he]
  · have h1 : resolvedHeadOf (branchOf cfg) env
        = resolvedHeadOf (branchOf cfg)
            { env with refRaw := .error ApiError.notFound } := by
      unfold resolvedHeadOf getRef
      rw [he]
    have h2 : baseTreeOf (branchOf cfg) env
        = baseTreeOf (branchOf cfg)
            { env with refRaw := .error ApiError.notFound } := by
      unfold baseTreeOf getRef
      rw [he]
    have h3 : scanLogsOf (branchOf cfg) env
        = scanLogsOf (branchOf cfg)
            { env with refRaw := .error ApiError.notFound } := by
      unfold scanLogsOf getRef
      rw [he]
    have h4 : analysisOf cfg files env
        = analysisOf cfg files
            { env with refRaw := .error ApiError.notFound } := by
      unfold analysisOf
      rw [h2]
    have h5 : deleteOf cfg files env
        = deleteOf cfg files
            { env with refRaw := .error ApiError.notFound } := by
      unfold deleteOf
      rw [h2, h4]
    have h6 : preLogs cfg files env
        = preLogs cfg files
            { env with refRaw := .error ApiError.notFound } := by
      unfold preLogs
      rw [h2, h3, h4, h5]
    have h7 : commitMessageOf cfg files env
        = commitMessageOf cfg files
            { env with refRaw := .error ApiError.notFound } := by
      unfold commitMessageOf
      rw [h4, h5]
    simp only [startSync]
    rw [h1, h4, h5, h6, h7, h2]

/-- C6 witness: the amended theorem instantiated on the concrete
authentication-failure run. -/
theorem claim_C6_witness :
    (envAuthFail.refRaw = .error ApiError.authFailed) ∧
    resolvedHeadOf (branchOf cfgPlain) envAuthFail = none :=
  ⟨rfl,
    (claim_C6_amended "main" ApiError.authFailed ApiError.notFound cfgPlain
      filesOneW envAuthFail rfl).2.1⟩

/-- C8 counterexample: two selected device paths, `a\b` and `a/b`, both
sanitize to the combined remote path `a/b`; both are uploaded, and the
assembled final tree carries that path twice. -/
theorem claim_C8_counterexample :
    (startSync cfgPlain (selectFiles [("a\\b", [1]), ("a/b", [2])])
        envEmptyRemote).finalTree.map (fun e => e.path) = ["a/b", "a/b"] ∧
    ¬ ((startSync cfgPlain (selectFiles [("a\\b", [1]), ("a/b", [2])])
        envEmptyRemote).finalTree.map (fun e => e.path)).Nodup := by
  refine ⟨by decide, by decide⟩

/-- C8 (amended): provided the local paths are normalized, non-empty and
pairwise distinct (so no two files collide on one combined remote path)
and the remote snapshot lists each path once, the assembled final tree
has at most one entry per path, and any entry whose path was uploaded is
the uploaded entry — the upload supersedes the original remote entry. -/
theorem claim_C8_final_tree_unique (cfg : SyncConfig)
    (files : List FileToSync) (env : RemoteEnv)
    (hSan : ∀ f ∈ files, sanitizeGitPath f.path = f.path ∧ f.path ≠ "")
    (hNodup : (files.map (fun f => f.path)).Nodup)
    (hTree : (((baseTreeOf (branchOf cfg) env).1).map
      (fun i => i.path)).Nodup) :
    (((startSync cfg files env).finalTree.map (fun e => e.path)).Nodup) ∧
    (∀ e ∈ (startSync cfg files env).finalTree,
      e.path ∈ (startSync cfg files env).uploadedEntries.map (fun x => x.path) →
      e ∈ (startSync cfg files env).uploadedEntries) := by
  by_cases hga : files = [] ∧ cfg.deleteMissing = false
  · obtain ⟨hf, hdm⟩ := hga
    subst hf
    rw [startSync_early cfg env hdm]
    exact ⟨List.nodup_nil, fun e he => absurd he (List.not_mem_nil e)⟩
  · have hguard : files ≠ [] ∨ cfg.deleteMissing = true := by
      by_cases hf : files = []
      · right
        rcases Bool.eq_false_or_eq_true cfg.deleteMissing with h | h
        · exact h
        · exact absurd ⟨hf, h⟩ hga
      · exact Or.inl hf
    by_cases hsc : (analysisOf cfg files env).toUpload = []
        ∧ deleteOf cfg files env = []
    · rw [startSync_shortCircuit cfg files env hguard hsc.1 hsc.2]
      exact ⟨List.nodup_nil, fun e he => absurd he (List.not_mem_nil e)⟩
    · by_cases hok : (runChunks env.createBlob
          (chunksAux 4 (analysisOf cfg files env).toUpload)).2.2.2 = true
      · rw [startSync_commit cfg files env hguard hsc hok]
        have hupN : (((runChunks env.createBlob
            (chunksAux 4 (analysisOf cfg files env).toUpload)).2.1).map
              (fun e => e.path)).Nodup := by
          have hsub1 := runChunks_entries_sublist env.createBlob
            (chunksAux 4 (analysisOf cfg files env).toUpload)
          rw [chunksAux_join 4 (analysisOf cfg files env).toUpload.length
            (analysisOf cfg files env).toUpload le_rfl] at hsub1
          have hsub2 := @analyze_upload_paths_sublist (targetPref cfg)
            ((baseTreeOf (branchOf cfg) env).1) files
          have hcombN : (files.map
              (fun f => sanitizeGitPath (targetPref cfg ++ f.path))).Nodup := by
            refine List.Nodup.map_on ?_ (hNodup.of_map)
            intro x hx y hy hxy
            have h1 := hSan x hx
            have h2 := hSan y hy
            have hpath : x.path = y.path :=
              combinedPath_inj cfg h1.1 h1.2 h2.1 h2.2 hxy
            exact List.inj_on_of_nodup_map hNodup hx hy hpath
          exact hcombN.sublist (hsub1.trans hsub2)
        constructor
        · show ((assembleTree cfg (targetPref cfg)
            (baseTreeOf (branchOf cfg) env).1
            ((runChunks env.createBlob
              (chunksAux 4 (analysisOf cfg files env).toUpload)).2.1)
            (deleteOf cfg files env)
            ((analysisOf cfg files env).processed)).map
              (fun e => e.path)).Nodup
          rw [assembleTree_map_path, List.nodup_append]
          refine ⟨hupN, ?_, ?_⟩
          · exact hTree.sublist
              (List.Sublist.map _ (List.filter_sublist _))
          · intro a ha hb
            rcases List.mem_map.mp hb with ⟨t, ht, hta⟩
            have hf2 := (List.mem_filter.mp ht).2
            rw [Bool.and_eq_true, Bool.and_eq_true, Bool.and_eq_true] at hf2
            obtain ⟨⟨⟨_, hB⟩, _⟩, _⟩ := hf2
            rw [Bool.not_eq_true', decide_eq_false_iff_not] at hB
            exact hB (hta ▸ ha)
        · intro e he hpe
          rcases assembleTree_mem cfg (targetPref cfg)
            (baseTreeOf (branchOf cfg) env).1 _ _ _ e he
            with h | ⟨_, hnup, _⟩
          · exact h
          · exact absurd hpe hnup
      · rw [startSync_uploadFail cfg files env hguard hsc
          (Bool.eq_false_iff.mpr hok)]
        exact ⟨List.nodup_nil, fun e he => absurd he (List.not_mem_nil e)⟩

/-- C8 witness: the amended uniqueness holds on the concrete two-file
first-push run. -/
theorem claim_C8_witness :
    ((∀ f ∈ filesTwoW, sanitizeGitPath f.path = f.path ∧ f.path ≠ "") ∧
     ((filesTwoW.map (fun f => f.path)).Nodup) ∧
     (((baseTreeOf (branchOf cfgPlain) envEmptyRemote).1).map
       (fun i => i.path)).Nodup) ∧
    (((startSync cfgPlain filesTwoW envEmptyRemote).finalTree.map
      (fun e => e.path)).Nodup) :=
  ⟨⟨by decide, by decide, by decide⟩,
    (claim_C8_final_tree_unique cfgPlain filesTwoW envEmptyRemote
      (by decide) (by decide) (by decide)).1⟩

/-- C9 counterexample: target prefix `src`, delete-missing enabled,
untruncated listing holding the blob `src2/file` with no local
counterpart — contrary to the claim, `src2/file` is NOT scheduled for
deletion (the delete set is empty). -/
theorem claim_C9_counterexample :
    (startSync cfgSrc [] envSrc2).filesToDelete = [] ∧
    "src2/file" ∉ (startSync cfgSrc [] envSrc2).filesToDelete := by
  refine ⟨by decide, by decide⟩

/-- C9 (amended): delete-missing scoping compares remote paths against the
sanitized target prefix with a trailing slash appended — for target
prefix `src` the comparison string is `src/` — so every deleted path
starts with `src/`, and in particular a blob at `src2/file` is never
scheduled for deletion; the raw-prefix-match anomaly the claim describes
does not occur. -/
theorem claim_C9_delete_scoping (cfg : SyncConfig) (files : List FileToSync)
    (env : RemoteEnv) (htp : cfg.targetPath = "src") :
    targetPref cfg = "src/" ∧
    (∀ p ∈ (startSync cfg files env).filesToDelete,
      jsStartsWith p "src/" = true) ∧
    "src2/file" ∉ (startSync cfg files env).filesToDelete := by
  have hpref : targetPref cfg = "src/" := by
    unfold targetPref
    rw [htp]
    decide
  obtain ⟨_, _, hdelf, _⟩ := startSync_analysis_fields cfg files env
  have hmem : ∀ p ∈ (startSync cfg files env).filesToDelete,
      jsStartsWith p "src/" = true := by
    intro p hp
    rw [hdelf] at hp
    obtain ⟨_, _, i, hi, hty, hip, hpre, _⟩ := mem_deleteSetOf.mp hp
    rw [hpref] at hpre
    unfold inPref at hpre
    rw [if_neg (by decide)] at hpre
    exact hip ▸ hpre
  refine ⟨hpref, hmem, ?_⟩
  intro hmem2
  exact absurd (hmem _ hmem2) (by decide)

/-- C9 witness: the amended scoping instantiated on the concrete
`src2/file` run. -/
theorem claim_C9_witness :
    (cfgSrc.targetPath = "src") ∧
    "src2/file" ∉ (startSync cfgSrc [] envSrc2).filesToDelete :=
  ⟨by decide,
    (claim_C9_delete_scoping cfgSrc [] envSrc2 (by decide)).2.2⟩

end GitSync
